import Mathlib

/-!
The test-run coordinator of neko.

A shallow embedding of `neko.go` (the simple `Organizer`) and `neko_modern.go`
(the enhanced `OrganizerModern`), with the properties of their `Run` loops.

Modelling conventions.

* A `*mock.Mock` is a valid reference: an address `MockRef` into the heap of
  the `World`.  Of a mock only the two fields the coordinator writes are kept,
  `ExpectedCalls` and `Calls`.
* A Go `func()` is a `Hook`: a transformer of the `World` that also says how the
  call ended (`Outcome`).  Such a callback leaves the organizer alone; the
  callbacks that register hooks, mocks or tests while `Run` is in progress are
  those of the namespace `ByRef`.
* `Run` is instrumented with a ghost `trace` of the steps it takes, in order,
  and with the list `asserted` of what each `AssertExpectations` call saw in
  the mock it inspected.
-/

namespace Neko

/-- How a call of a user callback ends: it returns normally (`ok`), it leaves
the running test through `runtime.Goexit`, as `t.FailNow` does (`abort`), or it
panics (`panic`). -/
inductive Outcome where
  | ok
  | abort
  | panic
deriving DecidableEq, Repr

/-- A `*testing.T`: the context of the suite, or the context of a sub-test
opened with `t.Run(name, ...)`. -/
inductive T where
  | root (id : String)
  | sub (parent : T) (name : String)
deriving DecidableEq, Repr

/-- The address of a `mock.Mock`. -/
abbrev MockRef := Nat

/-- The fields of `mock.Mock` that the coordinator touches. -/
structure Mock where
  ExpectedCalls : List String
  Calls : List String
deriving DecidableEq, Repr

/-- The mock after `mock.ExpectedCalls = nil; mock.Calls = nil`. -/
def Mock.cleared : Mock := ⟨[], []⟩

/-- Everything a callback can read and write: the mocks, and the variables its
closure captured. -/
structure World where
  heap : MockRef → Mock
  vars : Nat → Int

/-- The world after `mock.ExpectedCalls = nil; mock.Calls = nil` on the mock at `m`. -/
def World.clear (w : World) (m : MockRef) : World :=
  { w with heap := fun r => if r = m then Mock.cleared else w.heap r }

/-- A Go `func()`. -/
abbrev Hook := World → Outcome × World

/-- A Go `func(t *testing.T)`. -/
abbrev HookT := T → World → Outcome × World

/-- One step taken by the coordinator. -/
inductive Event where
  /-- Logf of the line `==== DISABLED: name ====` -/
  | disabled (name : String)
  /-- Logf of the line `==== name ====` -/
  | running (name : String)
  /-- Logf of the line `Meow! Neko is on the case! Running n tests now!` -/
  | meow (n : Nat)
  /-- The two assignments `mock.ExpectedCalls = nil; mock.Calls = nil` -/
  | reset (m : MockRef)
  /-- The call of the setup hook at index `i` of `o.setup` -/
  | setup (i : Nat)
  /-- The call `test.Func()` (`arg = none`) or `test.Func(t)` (`arg = some t`) -/
  | body (name : String) (arg : Option T)
  /-- The call `mock.AssertExpectations(t)` -/
  | verify (m : MockRef) (t : T)
  /-- The call of the cleanup hook at index `i` of `o.cleanup` -/
  | cleanup (i : Nat)
  /-- The call `parent.Run(name, ...)` starts the sub-test -/
  | scopeOpen (parent : T) (name : String)
  /-- The call `parent.Run(name, ...)` returns to its caller -/
  | scopeClose (parent : T) (name : String)
deriving DecidableEq, Repr

/-- The state threaded through a run. -/
structure St where
  world : World
  trace : List Event
  asserted : List (MockRef × Mock)

/-- The state in which a run starts: nothing has happened yet. -/
def St.init (w : World) : St := ⟨w, [], []⟩

/-- Record one step. -/
def St.emit (s : St) (e : Event) : St :=
  { s with trace := s.trace ++ [e] }

/-- The loop `for _, mock := range mocks { mock.ExpectedCalls = nil; mock.Calls = nil }`. -/
def resetMocks : List MockRef → St → St
  | [], s => s
  | m :: ms, s => resetMocks ms ({ s with world := s.world.clear m }.emit (.reset m))

/-- The loop `for _, f := range hooks { f() }`, from index `i` on; `ev` names the
step (`Event.setup` or `Event.cleanup`).  A hook that does not return normally
ends the loop: nothing catches it. -/
def runHooks (ev : Nat → Event) : List Hook → Nat → St → Outcome × St
  | [], _, s => (.ok, s)
  | f :: fs, i, s =>
    match f s.world with
    | (.ok, w) => runHooks ev fs (i + 1) ({ s with world := w }.emit (ev i))
    | (r, w) => (r, { s with world := w }.emit (ev i))

/-- The loop `for _, mock := range mocks { mock.AssertExpectations(t) }`.
`AssertExpectations` reads the mock and reports to `t` through `Errorf`; it
returns normally whatever it finds. -/
def verifyMocks (t : T) : List MockRef → St → St
  | [], s => s
  | m :: ms, s =>
    verifyMocks t ms ({ s with asserted := s.asserted ++ [(m, s.world.heap m)] }.emit (.verify m t))

/-! ## The simple variant (`neko.go`) -/

/-- The `Test` tuple of the simple variant; `Func = none` is Go's `nil`. -/
structure Test where
  Name : String
  Func : Option Hook

/-- The simple organizer. -/
structure Organizer where
  t : T
  mocks : List MockRef
  setup : List Hook
  tests : List Test

/-- The constructor `Start(t)`. -/
def Start (t : T) : Organizer := ⟨t, [], [], []⟩

namespace Organizer

/-- The method `CheckMock(m)`. -/
def CheckMock (o : Organizer) (m : MockRef) : Organizer :=
  { o with mocks := o.mocks ++ [m] }

/-- The method `Setup(f)`. -/
def Setup (o : Organizer) (f : Hook) : Organizer :=
  { o with setup := o.setup ++ [f] }

/-- The method `It(name, f)`. -/
def It (o : Organizer) (name : String) (f : Option Hook) : Organizer :=
  { o with tests := o.tests ++ [⟨name, f⟩] }

/-- The method `NIt(name, f)`: the record gets `nil`, not `f`. -/
def NIt (o : Organizer) (name : String) (_f : Option Hook) : Organizer :=
  { o with tests := o.tests ++ [⟨name, none⟩] }

/-- One iteration of the loop of `Run`. -/
def runOne (o : Organizer) (test : Test) (s : St) : Outcome × St :=
  match test.Func with
  | none => (.ok, s.emit (.disabled test.Name))
  | some f =>
    let s1 := resetMocks o.mocks (s.emit (.running test.Name))
    match runHooks Event.setup o.setup 0 s1 with
    | (.ok, s2) =>
      match f s2.world with
      | (.ok, w) => (.ok, verifyMocks o.t o.mocks ({ s2 with world := w }.emit (.body test.Name none)))
      | (r, w) => (r, { s2 with world := w }.emit (.body test.Name none))
    | (r, s2) => (r, s2)

/-- The loop `for _, test := range o.tests` of `Run`: a panic or a `Goexit`
in one iteration leaves the loop, and `Run` with it. -/
def runLoop (o : Organizer) : List Test → St → Outcome × St
  | [], s => (.ok, s)
  | test :: rest, s =>
    match o.runOne test s with
    | (.ok, s1) => runLoop o rest s1
    | (r, s1) => (r, s1)

/-- The method `Run()`. -/
def Run (o : Organizer) (s : St) : Outcome × St :=
  o.runLoop o.tests s

/-- The method `Meow()`. -/
def Meow (o : Organizer) (s : St) : Outcome × St :=
  o.Run (s.emit (.meow o.tests.length))

end Organizer

/-! ## The enhanced variant (`neko_modern.go`) -/

/-- The `testModern` tuple; `Func = none` is Go's `nil`. -/
structure testModern where
  Name : String
  Func : Option HookT

/-- The enhanced organizer; `only = none` is the `nil` pointer. -/
structure OrganizerModern where
  t : T
  only : Option testModern
  mocks : List MockRef
  setup : List Hook
  cleanup : List Hook
  tests : List testModern

/-- The constructor `Modern(t)`. -/
def Modern (t : T) : OrganizerModern := ⟨t, none, [], [], [], []⟩

/-- The method `t.Run(name, fn)` of the testing package, as far as the
coordinator depends on it: `fn` runs with the context of a new sub-test of
`parent`; when `fn` returns or leaves through `Goexit` the call returns to its
caller, and a panic in `fn` is not recovered. -/
def tRun (parent : T) (name : String) (fn : T → St → Outcome × St) (s : St) : Outcome × St :=
  match fn (.sub parent name) (s.emit (.scopeOpen parent name)) with
  | (.panic, s1) => (.panic, s1)
  | (_, s1) => (.ok, s1.emit (.scopeClose parent name))

namespace OrganizerModern

/-- The method `CheckMock(m)`. -/
def CheckMock (o : OrganizerModern) (m : MockRef) : OrganizerModern :=
  { o with mocks := o.mocks ++ [m] }

/-- The method `Setup(f)`. -/
def Setup (o : OrganizerModern) (f : Hook) : OrganizerModern :=
  { o with setup := o.setup ++ [f] }

/-- The method `Cleanup(f)`. -/
def Cleanup (o : OrganizerModern) (f : Hook) : OrganizerModern :=
  { o with cleanup := o.cleanup ++ [f] }

/-- The method `It(name, f)`. -/
def It (o : OrganizerModern) (name : String) (f : Option HookT) : OrganizerModern :=
  { o with tests := o.tests ++ [⟨name, f⟩] }

/-- The method `Only(name, f)`. -/
def Only (o : OrganizerModern) (name : String) (f : Option HookT) : OrganizerModern :=
  { o with only := some ⟨name, f⟩ }

/-- The method `NIt(name, f)`: the record gets `nil`, not `f`. -/
def NIt (o : OrganizerModern) (name : String) (_f : Option HookT) : OrganizerModern :=
  { o with tests := o.tests ++ [⟨name, none⟩] }

/-- The method `runCleanup()`. -/
def runCleanup (o : OrganizerModern) (s : St) : Outcome × St :=
  runHooks Event.cleanup o.cleanup 0 s

/-- The function literal that `runTest` passes to `o.t.Run`.  The deferred
`o.runCleanup()` is registered once the setup loop is over, and runs when the
function is left from then on, normally or not; a cleanup that does not itself
return normally decides how the function ends. -/
def scope (o : OrganizerModern) (name : String) (f : HookT) (t : T) (s : St) : Outcome × St :=
  let s1 := resetMocks o.mocks s
  match runHooks Event.setup o.setup 0 s1 with
  | (.ok, s2) =>
    match f t s2.world with
    | (.ok, w) =>
      let s3 := verifyMocks o.t o.mocks ({ s2 with world := w }.emit (.body name (some t)))
      o.runCleanup s3
    | (r, w) =>
      match o.runCleanup ({ s2 with world := w }.emit (.body name (some t))) with
      | (.ok, s4) => (r, s4)
      | (rc, s4) => (rc, s4)
  | (r, s2) => (r, s2)

/-- The method `runTest(test)`. -/
def runTest (o : OrganizerModern) (test : testModern) (s : St) : Outcome × St :=
  match test.Func with
  | none => (.ok, s.emit (.disabled test.Name))
  | some f => tRun o.t test.Name (o.scope test.Name f) s

/-- The loop `for _, test := range o.tests { o.runTest(&test) }` of `Run`. -/
def runLoop (o : OrganizerModern) : List testModern → St → Outcome × St
  | [], s => (.ok, s)
  | test :: rest, s =>
    match o.runTest test s with
    | (.ok, s1) => runLoop o rest s1
    | (r, s1) => (r, s1)

/-- The method `Run()`. -/
def Run (o : OrganizerModern) (s : St) : Outcome × St :=
  match o.only with
  | some test => o.runTest test s
  | none => o.runLoop o.tests s

/-- The method `Meow()`. -/
def Meow (o : OrganizerModern) (s : St) : Outcome × St :=
  o.Run s

end OrganizerModern

/-! ## The sequences the specification describes -/

/-- The steps the specification lists for one record of the simple variant: a
disabled report for an absent body; otherwise the running report, a reset of
every mock, every setup hook, the body, a verification of every mock. -/
def Organizer.specTest (o : Organizer) (test : Test) : List Event :=
  match test.Func with
  | none => [.disabled test.Name]
  | some _ =>
    [.running test.Name] ++ o.mocks.map Event.reset ++ (List.range o.setup.length).map Event.setup
      ++ [.body test.Name none] ++ o.mocks.map (fun m => Event.verify m o.t)

/-- The steps the specification lists for one record of the enhanced variant: a
disabled report for an absent body; otherwise one sub-scope under the name of
the test holding a reset of every mock, every setup hook, the body with the
context of the sub-scope, a verification of every mock, every cleanup hook. -/
def OrganizerModern.specTest (o : OrganizerModern) (test : testModern) : List Event :=
  match test.Func with
  | none => [.disabled test.Name]
  | some _ =>
    [.scopeOpen o.t test.Name] ++ o.mocks.map Event.reset
      ++ (List.range o.setup.length).map Event.setup
      ++ [.body test.Name (some (.sub o.t test.Name))] ++ o.mocks.map (fun m => Event.verify m o.t)
      ++ (List.range o.cleanup.length).map Event.cleanup ++ [.scopeClose o.t test.Name]

/-- Is the step the call of a test body? -/
def Event.isBody : Event → Bool
  | .body _ _ => true
  | _ => false

/-- The test a step names: reports, sub-scopes and body calls carry the name of
a test, the steps on mocks and hooks carry none. -/
def Event.testName : Event → Option String
  | .disabled n => some n
  | .running n => some n
  | .body n _ => some n
  | .scopeOpen _ n => some n
  | .scopeClose _ n => some n
  | _ => none

/-- Is the step one on a mock or a hook (a reset, a setup hook, a verification,
a cleanup hook)? -/
def Event.quiet : Event → Bool
  | .reset _ => true
  | .setup _ => true
  | .verify _ _ => true
  | .cleanup _ => true
  | _ => false

/-- Two states that differ at most in the contents of the mocks `ms`. -/
def St.agreeOff (ms : List MockRef) (s s2 : St) : Prop :=
  s.trace = s2.trace ∧ s.asserted = s2.asserted ∧ s.world.vars = s2.world.vars
    ∧ ∀ m, m ∉ ms → s.world.heap m = s2.world.heap m

/-- Is the step a reset of the mock at `m`? -/
def Event.isReset (m : MockRef) : Event → Bool
  | .reset x => x == m
  | _ => false

/-- Is the step a verification of the mock at `m`? -/
def Event.isVerify (m : MockRef) : Event → Bool
  | .verify x _ => x == m
  | _ => false

/-- The records `Run` of the enhanced variant processes: the override when one
is set, the tests list otherwise. -/
def OrganizerModern.executed (o : OrganizerModern) : List testModern :=
  match o.only with
  | some test => [test]
  | none => o.tests

/-! ## Callbacks and organizers used as concrete instances -/

/-- A world in which every mock is empty and every variable is zero. -/
def World.blank : World := ⟨fun _ => Mock.cleared, fun _ => 0⟩

/-- A callback that adds one to variable `0` and returns. -/
def hookIncr : Hook := fun w =>
  (.ok, { w with vars := fun k => if k = 0 then w.vars 0 + 1 else w.vars k })

/-- A callback that records the expectation `call` on the mock at `m` and returns. -/
def hookExpect (m : MockRef) (call : String) : Hook := fun w =>
  (.ok, { w with heap := fun r =>
    if r = m then ⟨(w.heap m).ExpectedCalls ++ [call], (w.heap m).Calls⟩ else w.heap r })

/-- A callback that leaves the running test through `FailNow`. -/
def hookAbort : Hook := fun w => (.abort, w)

/-- A callback that panics. -/
def hookPanic : Hook := fun w => (.panic, w)

/-- A test body of the enhanced variant that ignores its context. -/
def bodyOf (h : Hook) : HookT := fun _ w => h w

/-- A simple organizer: one mock, one setup hook, the disabled test `a` and the
enabled test `b`. -/
def exSimple : Organizer :=
  ((((Start (.root "suite")).CheckMock 0).Setup hookIncr).NIt "a" (some hookPanic)).It "b"
    (some (hookExpect 0 "Foo"))

/-- An enhanced organizer: one mock, one setup hook, one cleanup hook, the
disabled test `a` and the enabled test `b`. -/
def exModern : OrganizerModern :=
  (((((Modern (.root "suite")).CheckMock 0).Setup hookIncr).Cleanup hookIncr).NIt "a"
    (some (bodyOf hookPanic))).It "b" (some (bodyOf (hookExpect 0 "Foo")))

/-- An enhanced organizer whose first cleanup hook panics, with one test whose
body leaves through `FailNow`. -/
def exCleanupPanics : OrganizerModern :=
  (((Modern (.root "suite")).Cleanup hookPanic).Cleanup hookIncr).It "t" (some (bodyOf hookAbort))

/-- An enhanced organizer with one mock, one setup hook and two cleanup hooks
that return normally, and one test whose body leaves through `FailNow`. -/
def exBodyAborts : OrganizerModern :=
  (((((Modern (.root "suite")).CheckMock 0).Setup hookIncr).Cleanup hookIncr).Cleanup
    hookIncr).It "t" (some (bodyOf hookAbort))

/-- The organizer `exModern` after `Only("x", nil)`. -/
def exOnlyNil : OrganizerModern := exModern.Only "x" none

/-- The organizer `exModern` after `Only("x", body)` with a body that returns. -/
def exOnly : OrganizerModern := exModern.Only "x" (some (bodyOf hookIncr))

/-- A world in which the mock at `0` still carries an expectation and a call
left by an earlier test. -/
def World.used : World :=
  ⟨fun r => if r = 0 then ⟨["Old"], ["Old"]⟩ else Mock.cleared, fun _ => 0⟩

/-- An enhanced organizer with one mock, one setup hook, one cleanup hook and
two tests: the body of `t1` leaves through `FailNow`, the body of `t2` returns. -/
def exIsolation : OrganizerModern :=
  (((((Modern (.root "suite")).CheckMock 0).Setup hookIncr).Cleanup hookIncr).It "t1"
    (some (bodyOf hookAbort))).It "t2" (some (bodyOf (hookExpect 0 "Foo")))

/-- The state of `exIsolation` after the resets and the setup hook of `t1`. -/
def exIsolationSb : St :=
  (runHooks Event.setup exIsolation.setup 0
    (resetMocks exIsolation.mocks
      ((St.init World.blank).emit (.scopeOpen exIsolation.t "t1")))).2

/-- The state of `exIsolation` after the cleanup hook of `t1`. -/
def exIsolationS4 : St :=
  (exIsolation.runCleanup
    ({ exIsolationSb with world := exIsolationSb.world }.emit
      (.body "t1" (some (.sub exIsolation.t "t1"))))).2

/-- An enhanced organizer whose first setup hook leaves through `FailNow`, with
a second setup hook, one cleanup hook, one mock and one test. -/
def exSetupAborts : OrganizerModern :=
  (((((Modern (.root "suite")).CheckMock 0).Setup hookAbort).Setup hookIncr).Cleanup
    hookIncr).It "t" (some (bodyOf hookIncr))

/-- A simple organizer with one mock and one test whose body leaves through
`FailNow`. -/
def exSimpleAborts : Organizer :=
  ((Start (.root "suite")).CheckMock 0).It "t" (some hookAbort)

/-- A simple organizer on which the mock at `0` is registered twice, with the
enabled tests `a` and `b` and the disabled test `c`. -/
def exTwiceSimple : Organizer :=
  (((((Start (.root "suite")).CheckMock 0).CheckMock 0).It "a" (some hookIncr)).NIt "c"
    (some hookIncr)).It "b" (some hookIncr)

/-- An enhanced organizer on which the mock at `0` is registered twice, with the
enabled tests `a` and `b` and the disabled test `c`. -/
def exTwiceModern : OrganizerModern :=
  (((((Modern (.root "suite")).CheckMock 0).CheckMock 0).It "a" (some (bodyOf hookIncr))).NIt
    "c" (some (bodyOf hookIncr))).It "b" (some (bodyOf hookIncr))

/-- The state `s` with the steps `pre` put in front of its trace. -/
def St.shift (pre : List Event) (s : St) : St :=
  { s with trace := pre ++ s.trace }

/-- Is the step the summary line of `Meow`? -/
def Event.isMeow : Event → Bool
  | .meow _ => true
  | _ => false

/-- Is the step a coordination step: a reset, a setup hook, a body, a
verification, a cleanup hook, a sub-scope or the report of one test? -/
def Event.isCoordination (e : Event) : Bool := !e.isMeow

/-- The steps the per-test routine of the enhanced variant can take on `test`. -/
def OrganizerModern.stepOf (o : OrganizerModern) (test : testModern) (e : Event) : Prop :=
  e = .disabled test.Name ∨ e = .scopeOpen o.t test.Name ∨ e = .scopeClose o.t test.Name
    ∨ (∃ m, e = .reset m) ∨ (∃ k, e = .setup k) ∨ (∃ k, e = .cleanup k)
    ∨ e = .body test.Name (some (.sub o.t test.Name)) ∨ (∃ m, m ∈ o.mocks ∧ e = .verify m o.t)

/-- A simple organizer with one mock, one setup hook and two tests: the body of
`t1` leaves through `FailNow`, the body of `t2` returns. -/
def exSimpleTwo : Organizer :=
  ((((Start (.root "suite")).CheckMock 0).Setup hookIncr).It "t1" (some hookAbort)).It "t2"
    (some (hookExpect 0 "Foo"))

/-- Did every callback called by the per-test routine on `test`, started in `s`,
return normally?  The routine calls the setup hooks, the body and the cleanup
hooks inside `scope`, and the outcome of `scope` is `ok` exactly when all of
them returned normally; on a record without a body it calls nothing. -/
def OrganizerModern.normalTest (o : OrganizerModern) (test : testModern) (s : St) : Bool :=
  match test.Func with
  | none => true
  | some f =>
    decide ((o.scope test.Name f (.sub o.t test.Name) (s.emit (.scopeOpen o.t test.Name))).1 = .ok)

/-- Did every callback called by the loop over `ts`, started in `s`, return
normally? -/
def OrganizerModern.normalLoop (o : OrganizerModern) : List testModern → St → Bool
  | [], _ => true
  | test :: rest, s => o.normalTest test s && normalLoop o rest (o.runTest test s).2

/-- Did every callback called by `Run`, started in `s`, return normally? -/
def OrganizerModern.normalRun (o : OrganizerModern) (s : St) : Bool :=
  match o.only with
  | some test => o.normalTest test s
  | none => o.normalLoop o.tests s

/-- A callback that returns normally when variable `0` is one and leaves through
`FailNow` otherwise. -/
def hookGuarded : Hook := fun w => if w.vars 0 = 1 then (.ok, w) else (.abort, w)

/-- A simple organizer with one mock, the setup hook `hookIncr`, the disabled
test `a` and the test `g` whose body is `hookGuarded`: the body returns normally
in the run from `World.blank`, and would not in other worlds. -/
def exGuardedSimple : Organizer :=
  ((((Start (.root "suite")).CheckMock 0).Setup hookIncr).NIt "a" (some hookPanic)).It "g"
    (some hookGuarded)

/-- An enhanced organizer with one mock, the setup hook `hookIncr`, the cleanup
hook `hookGuarded`, the disabled test `a` and the test `g` whose body is
`hookGuarded`. -/
def exGuardedModern : OrganizerModern :=
  (((((Modern (.root "suite")).CheckMock 0).Setup hookIncr).Cleanup hookGuarded).NIt "a"
    (some (bodyOf hookPanic))).It "g" (some (bodyOf hookGuarded))

/-! ## The organizer as the callbacks reach it

A callback is a closure: it can capture the pointer to the organizer and call
its methods while `Run` is in progress.  Here the organizer is part of the
state of the run.  The callbacks are named by numbers, the organizer stores the
numbers, and a program `sem` says what the callback of each number does to the
organizer and to the world. -/

namespace ByRef

/-- The name of a callback of the test program. -/
abbrev Code := Nat

/-- The `Test` tuple of the simple variant; `Func = none` is Go's `nil`. -/
structure Test where
  Name : String
  Func : Option Code
deriving DecidableEq, Repr

/-- The simple organizer. -/
structure Organizer where
  t : T
  mocks : List MockRef
  setup : List Code
  tests : List Test
deriving DecidableEq, Repr

/-- The `testModern` tuple; `Func = none` is Go's `nil`. -/
structure testModern where
  Name : String
  Func : Option Code
deriving DecidableEq, Repr

/-- The enhanced organizer; `only = none` is the `nil` pointer. -/
structure OrganizerModern where
  t : T
  only : Option testModern
  mocks : List MockRef
  setup : List Code
  cleanup : List Code
  tests : List testModern
deriving DecidableEq, Repr

/-- What the callbacks do: the callback `c`, called with no argument (`none`, a
`func()`) or with the context `t` (`some t`, a `func(t *testing.T)`), takes the
organizer and the world as it finds them and leaves them as it likes. -/
abbrev Sem (α : Type) := Code → Option T → α × World → Outcome × (α × World)

/-- The state of a run: the organizer behind the pointer, the world, the ghost
trace, and the ghost flag `touched`: has some callback left the organizer other
than it found it? -/
structure Sys (α : Type) where
  o : α
  world : World
  trace : List Event
  touched : Bool

/-- Record one step. -/
def Sys.emit {α : Type} (s : Sys α) (e : Event) : Sys α :=
  { s with trace := s.trace ++ [e] }

/-- The call of the callback `c`. -/
def Sys.call {α : Type} [DecidableEq α] (sem : Sem α) (c : Code) (arg : Option T)
    (s : Sys α) : Outcome × Sys α :=
  match sem c arg (s.o, s.world) with
  | (r, (o2, w)) =>
    (r, { s with o := o2, world := w, touched := s.touched || decide (o2 ≠ s.o) })

/-- The loop `for _, mock := range mocks { mock.ExpectedCalls = nil; mock.Calls = nil }`. -/
def resetMocks {α : Type} : List MockRef → Sys α → Sys α
  | [], s => s
  | m :: ms, s => resetMocks ms ({ s with world := s.world.clear m }.emit (.reset m))

/-- The loop `for _, mock := range mocks { mock.AssertExpectations(t) }`. -/
def verifyMocks {α : Type} (t : T) : List MockRef → Sys α → Sys α
  | [], s => s
  | m :: ms, s => verifyMocks t ms (s.emit (.verify m t))

/-- The loop `for _, f := range hooks { f() }` over the slice `hooks` as it was
when the loop started, from index `i` on. -/
def runHooks {α : Type} [DecidableEq α] (sem : Sem α) (ev : Nat → Event) :
    List Code → Nat → Sys α → Outcome × Sys α
  | [], _, s => (.ok, s)
  | c :: cs, i, s =>
    match s.call sem c none with
    | (.ok, s1) => runHooks sem ev cs (i + 1) (s1.emit (ev i))
    | (r, s1) => (r, s1.emit (ev i))

/-- The method `t.Run(name, fn)` of the testing package, as in `Neko.tRun`. -/
def tRun {α : Type} (parent : T) (name : String) (fn : T → Sys α → Outcome × Sys α)
    (s : Sys α) : Outcome × Sys α :=
  match fn (.sub parent name) (s.emit (.scopeOpen parent name)) with
  | (.panic, s1) => (.panic, s1)
  | (_, s1) => (.ok, s1.emit (.scopeClose parent name))

namespace Organizer

/-- The method `It(name, f)`. -/
def It (o : Organizer) (name : String) (f : Option Code) : Organizer :=
  { o with tests := o.tests ++ [⟨name, f⟩] }

/-- The method `CheckMock(m)`. -/
def CheckMock (o : Organizer) (m : MockRef) : Organizer :=
  { o with mocks := o.mocks ++ [m] }

/-- The method `Setup(f)`. -/
def Setup (o : Organizer) (f : Code) : Organizer :=
  { o with setup := o.setup ++ [f] }

/-- The method `NIt(name, f)`: the body is dropped. -/
def NIt (o : Organizer) (name : String) (_f : Option Code) : Organizer :=
  { o with tests := o.tests ++ [⟨name, none⟩] }

/-- One iteration of the loop of `Run`; each inner `range` reads its slice from
the organizer when that loop starts. -/
def runOne (sem : Sem Organizer) (test : Test) (s : Sys Organizer) : Outcome × Sys Organizer :=
  match test.Func with
  | none => (.ok, s.emit (.disabled test.Name))
  | some f =>
    let s1 := resetMocks s.o.mocks (s.emit (.running test.Name))
    match runHooks sem Event.setup s1.o.setup 0 s1 with
    | (.ok, s2) =>
      match s2.call sem f none with
      | (.ok, s3) => (.ok, verifyMocks s3.o.t s3.o.mocks (s3.emit (.body test.Name none)))
      | (r, s3) => (r, s3.emit (.body test.Name none))
    | (r, s2) => (r, s2)

/-- The loop `for _, test := range o.tests` of `Run`, over the slice as it was
when the loop started. -/
def runLoop (sem : Sem Organizer) : List Test → Sys Organizer → Outcome × Sys Organizer
  | [], s => (.ok, s)
  | test :: rest, s =>
    match runOne sem test s with
    | (.ok, s1) => runLoop sem rest s1
    | (r, s1) => (r, s1)

/-- The method `Run()`. -/
def Run (sem : Sem Organizer) (s : Sys Organizer) : Outcome × Sys Organizer :=
  runLoop sem s.o.tests s

end Organizer

namespace OrganizerModern

/-- The method `It(name, f)`. -/
def It (o : OrganizerModern) (name : String) (f : Option Code) : OrganizerModern :=
  { o with tests := o.tests ++ [⟨name, f⟩] }

/-- The method `CheckMock(m)`. -/
def CheckMock (o : OrganizerModern) (m : MockRef) : OrganizerModern :=
  { o with mocks := o.mocks ++ [m] }

/-- The method `Setup(f)`. -/
def Setup (o : OrganizerModern) (f : Code) : OrganizerModern :=
  { o with setup := o.setup ++ [f] }

/-- The method `Cleanup(f)`. -/
def Cleanup (o : OrganizerModern) (f : Code) : OrganizerModern :=
  { o with cleanup := o.cleanup ++ [f] }

/-- The method `NIt(name, f)`: the body is dropped. -/
def NIt (o : OrganizerModern) (name : String) (_f : Option Code) : OrganizerModern :=
  { o with tests := o.tests ++ [⟨name, none⟩] }

/-- The method `Only(name, f)`. -/
def Only (o : OrganizerModern) (name : String) (f : Option Code) : OrganizerModern :=
  { o with only := some ⟨name, f⟩ }

/-- The method `runCleanup()`: it reads `o.cleanup` when it runs. -/
def runCleanup (sem : Sem OrganizerModern) (s : Sys OrganizerModern) :
    Outcome × Sys OrganizerModern :=
  runHooks sem Event.cleanup s.o.cleanup 0 s

/-- The function literal that `runTest` passes to `o.t.Run`, as in
`Neko.OrganizerModern.scope`; each `range` reads its slice from the organizer
when that loop starts. -/
def scope (sem : Sem OrganizerModern) (name : String) (f : Code) (t : T)
    (s : Sys OrganizerModern) : Outcome × Sys OrganizerModern :=
  let s1 := resetMocks s.o.mocks s
  match runHooks sem Event.setup s1.o.setup 0 s1 with
  | (.ok, s2) =>
    match s2.call sem f (some t) with
    | (.ok, s3) =>
      runCleanup sem (verifyMocks s3.o.t s3.o.mocks (s3.emit (.body name (some t))))
    | (r, s3) =>
      match runCleanup sem (s3.emit (.body name (some t))) with
      | (.ok, s4) => (r, s4)
      | (rc, s4) => (rc, s4)
  | (r, s2) => (r, s2)

/-- The method `runTest(test)`. -/
def runTest (sem : Sem OrganizerModern) (test : testModern) (s : Sys OrganizerModern) :
    Outcome × Sys OrganizerModern :=
  match test.Func with
  | none => (.ok, s.emit (.disabled test.Name))
  | some f => tRun s.o.t test.Name (scope sem test.Name f) s

/-- The loop `for _, test := range o.tests { o.runTest(&test) }` of `Run`, over
the slice as it was when the loop started. -/
def runLoop (sem : Sem OrganizerModern) :
    List testModern → Sys OrganizerModern → Outcome × Sys OrganizerModern
  | [], s => (.ok, s)
  | test :: rest, s =>
    match runTest sem test s with
    | (.ok, s1) => runLoop sem rest s1
    | (r, s1) => (r, s1)

/-- The method `Run()`. -/
def Run (sem : Sem OrganizerModern) (s : Sys OrganizerModern) :
    Outcome × Sys OrganizerModern :=
  match s.o.only with
  | some test => runTest sem test s
  | none => runLoop sem s.o.tests s

end OrganizerModern

/-- A test program for the simple variant: the callback `1` registers the test
`late` with body `2`, as `o.It("late", ...)` does; every other callback does
nothing. -/
def semLate : Sem Organizer := fun c _ x =>
  if c = 1 then (.ok, (x.1.It "late" (some 2), x.2)) else (.ok, x)

/-- A test program for the enhanced variant: the callback `1` registers the test
`late` with body `2`; every other callback does nothing. -/
def semLateModern : Sem OrganizerModern := fun c _ x =>
  if c = 1 then (.ok, (x.1.It "late" (some 2), x.2)) else (.ok, x)

/-- A test program whose callbacks all do nothing. -/
def semIdle (α : Type) : Sem α := fun _ _ x => (.ok, x)

/-- The simple organizer with the one test `t`, whose body is the callback `1`,
before any run. -/
def exLate : Sys Organizer :=
  ⟨⟨.root "suite", [0], [3], [⟨"t", some 1⟩]⟩, World.blank, [], false⟩

/-- The enhanced organizer with the one test `t`, whose body is the callback
`1`, before any run. -/
def exLateModern : Sys OrganizerModern :=
  ⟨⟨.root "suite", none, [0], [3], [4], [⟨"t", some 1⟩]⟩, World.blank, [], false⟩

end ByRef

/-- From `s` to `s2` no callback has changed the organizer: if `s2` is not
marked as touched then its organizer is the one of `s`, and `s` was not marked
either. -/
def ByRef.Sys.kept {α : Type} (s s2 : ByRef.Sys α) : Prop :=
  s2.touched = false → s2.o = s.o ∧ s.touched = false

/-! ## The loops, step by step -/

theorem emit_trace (s : St) (e : Event) : (s.emit e).trace = s.trace ++ [e] := rfl

theorem emit_world (s : St) (e : Event) : (s.emit e).world = s.world := rfl

theorem emit_asserted (s : St) (e : Event) : (s.emit e).asserted = s.asserted := rfl

theorem resetMocks_trace (ms : List MockRef) (s : St) :
    (resetMocks ms s).trace = s.trace ++ ms.map Event.reset := by
  induction ms generalizing s with
  | nil => simp [resetMocks]
  | cons m ms ih => simp [resetMocks, ih, St.emit]

theorem resetMocks_asserted (ms : List MockRef) (s : St) :
    (resetMocks ms s).asserted = s.asserted := by
  induction ms generalizing s with
  | nil => simp [resetMocks]
  | cons m ms ih => simp [resetMocks, ih, St.emit]

theorem resetMocks_vars (ms : List MockRef) (s : St) :
    (resetMocks ms s).world.vars = s.world.vars := by
  induction ms generalizing s with
  | nil => simp [resetMocks]
  | cons m ms ih => simp [resetMocks, ih, St.emit, World.clear]

theorem resetMocks_heap (ms : List MockRef) (s : St) (r : MockRef) :
    (resetMocks ms s).world.heap r = if r ∈ ms then Mock.cleared else s.world.heap r := by
  induction ms generalizing s with
  | nil => simp [resetMocks]
  | cons m ms ih =>
    simp only [resetMocks, ih, St.emit, World.clear, List.mem_cons]
    by_cases h1 : r ∈ ms <;> by_cases h2 : r = m <;> simp [h1, h2]

theorem verifyMocks_trace (t : T) (ms : List MockRef) (s : St) :
    (verifyMocks t ms s).trace = s.trace ++ ms.map (fun m => Event.verify m t) := by
  induction ms generalizing s with
  | nil => simp [verifyMocks]
  | cons m ms ih => simp [verifyMocks, ih, St.emit]

theorem verifyMocks_world (t : T) (ms : List MockRef) (s : St) :
    (verifyMocks t ms s).world = s.world := by
  induction ms generalizing s with
  | nil => simp [verifyMocks]
  | cons m ms ih => simp [verifyMocks, ih, St.emit]

theorem verifyMocks_asserted (t : T) (ms : List MockRef) (s : St) :
    (verifyMocks t ms s).asserted = s.asserted ++ ms.map (fun m => (m, s.world.heap m)) := by
  induction ms generalizing s with
  | nil => simp [verifyMocks]
  | cons m ms ih => simp [verifyMocks, ih, St.emit]

/-- The events of a hook loop that has run its first `k` hooks, from index `i`. -/
theorem range_shift (ev : Nat → Event) (i n : Nat) :
    (List.range (n + 1)).map (fun k => ev (i + k))
      = ev i :: (List.range n).map (fun k => ev (i + 1 + k)) := by
  rw [List.range_succ_eq_map]
  simp [List.map_map, Function.comp_def, Nat.add_assoc, Nat.add_comm 1]

/-- A hook loop that ends normally has called every hook, in order. -/
theorem runHooks_trace_of_ok (ev : Nat → Event) (fs : List Hook) (i : Nat) (s : St)
    (h : (runHooks ev fs i s).1 = .ok) :
    (runHooks ev fs i s).2.trace = s.trace ++ (List.range fs.length).map (fun k => ev (i + k)) := by
  induction fs generalizing i s with
  | nil => simp [runHooks]
  | cons f fs ih =>
    rcases hf : f s.world with ⟨r, w⟩
    cases r
    · simp only [runHooks, hf] at h ⊢
      rw [ih _ _ h, List.length_cons, range_shift]
      simp [St.emit]
    · simp [runHooks, hf] at h
    · simp [runHooks, hf] at h

/-- A hook loop never touches the record of what verification saw. -/
theorem runHooks_asserted (ev : Nat → Event) (fs : List Hook) (i : Nat) (s : St) :
    (runHooks ev fs i s).2.asserted = s.asserted := by
  induction fs generalizing i s with
  | nil => simp [runHooks]
  | cons f fs ih =>
    rcases hf : f s.world with ⟨r, w⟩
    cases r <;> simp [runHooks, hf, ih, St.emit]

/-- Hooks that all return normally make the loop end normally. -/
theorem runHooks_ok (ev : Nat → Event) (fs : List Hook) (i : Nat) (s : St)
    (h : ∀ f ∈ fs, ∀ w, (f w).1 = .ok) : (runHooks ev fs i s).1 = .ok := by
  induction fs generalizing i s with
  | nil => simp [runHooks]
  | cons f fs ih =>
    have h1 := h f (List.mem_cons_self _ _) s.world
    rcases hf : f s.world with ⟨r, w⟩
    rw [hf] at h1
    simp only at h1
    subst h1
    simp only [runHooks, hf]
    exact ih _ _ (fun g hg => h g (List.mem_cons_of_mem _ hg))

/-- A hook loop that does not end normally has stopped at a hook: it called the
hooks up to that one, in order, and none after it. -/
theorem runHooks_trace_of_fail (ev : Nat → Event) (fs : List Hook) (i : Nat) (s : St)
    (h : (runHooks ev fs i s).1 ≠ .ok) :
    ∃ k, k < fs.length
      ∧ (runHooks ev fs i s).2.trace = s.trace ++ (List.range (k + 1)).map (fun j => ev (i + j)) := by
  induction fs generalizing i s with
  | nil => simp [runHooks] at h
  | cons f fs ih =>
    rcases hf : f s.world with ⟨r, w⟩
    cases r
    · simp only [runHooks, hf] at h ⊢
      obtain ⟨k, hk, htr⟩ := ih _ _ h
      refine ⟨k + 1, by simpa using hk, ?_⟩
      rw [htr, range_shift ev i (k + 1)]
      simp [St.emit]
    · exact ⟨0, by simp, by simp [runHooks, hf, St.emit, List.range_succ]⟩
    · exact ⟨0, by simp, by simp [runHooks, hf, St.emit, List.range_succ]⟩

/-! ## Runs in which every callback returns normally -/

theorem Organizer.runOne_ok (o : Organizer) (test : Test) (s : St)
    (hsetup : ∀ f ∈ o.setup, ∀ w, (f w).1 = .ok)
    (hbody : ∀ f, test.Func = some f → ∀ w, (f w).1 = .ok) :
    (o.runOne test s).1 = .ok ∧ (o.runOne test s).2.trace = s.trace ++ o.specTest test := by
  cases hF : test.Func with
  | none => simp [Organizer.runOne, Organizer.specTest, hF, St.emit]
  | some f =>
    have hok := runHooks_ok Event.setup o.setup 0
      (resetMocks o.mocks (s.emit (.running test.Name))) hsetup
    have htr := runHooks_trace_of_ok Event.setup o.setup 0 _ hok
    rcases hrun : runHooks Event.setup o.setup 0
      (resetMocks o.mocks (s.emit (.running test.Name))) with ⟨r, s2⟩
    rw [hrun] at hok htr
    simp only at hok htr
    subst hok
    have hb := hbody f hF s2.world
    rcases hf : f s2.world with ⟨rb, w⟩
    rw [hf] at hb
    simp only at hb
    subst hb
    simp only [Organizer.runOne, hF, hrun, hf]
    simp [Organizer.specTest, hF, verifyMocks_trace, St.emit, htr, resetMocks_trace]

theorem Organizer.runLoop_ok (o : Organizer) (tests : List Test) (s : St)
    (hsetup : ∀ f ∈ o.setup, ∀ w, (f w).1 = .ok)
    (hbody : ∀ test ∈ tests, ∀ f, test.Func = some f → ∀ w, (f w).1 = .ok) :
    (o.runLoop tests s).1 = .ok
      ∧ (o.runLoop tests s).2.trace = s.trace ++ tests.flatMap o.specTest := by
  induction tests generalizing s with
  | nil => simp [Organizer.runLoop]
  | cons test rest ih =>
    have h1 := o.runOne_ok test s hsetup (hbody test (List.mem_cons_self _ _))
    rcases hrun : o.runOne test s with ⟨r, s1⟩
    rw [hrun] at h1
    simp only at h1
    obtain ⟨hr, htr⟩ := h1
    subst hr
    have h2 := ih s1 (fun t ht => hbody t (List.mem_cons_of_mem _ ht))
    simp only [Organizer.runLoop, hrun]
    refine ⟨h2.1, ?_⟩
    rw [h2.2, htr]
    simp

theorem OrganizerModern.scope_ok (o : OrganizerModern) (name : String) (f : HookT) (t : T)
    (s : St) (hsetup : ∀ g ∈ o.setup, ∀ w, (g w).1 = .ok)
    (hcleanup : ∀ g ∈ o.cleanup, ∀ w, (g w).1 = .ok) (hbody : ∀ w, (f t w).1 = .ok) :
    (o.scope name f t s).1 = .ok
      ∧ (o.scope name f t s).2.trace = s.trace ++ o.mocks.map Event.reset
          ++ (List.range o.setup.length).map Event.setup ++ [.body name (some t)]
          ++ o.mocks.map (fun m => Event.verify m o.t)
          ++ (List.range o.cleanup.length).map Event.cleanup := by
  have hok := runHooks_ok Event.setup o.setup 0 (resetMocks o.mocks s) hsetup
  have htr := runHooks_trace_of_ok Event.setup o.setup 0 _ hok
  rcases hrun : runHooks Event.setup o.setup 0 (resetMocks o.mocks s) with ⟨r, s2⟩
  rw [hrun] at hok htr
  simp only at hok htr
  subst hok
  have hb := hbody s2.world
  rcases hf : f t s2.world with ⟨rb, w⟩
  rw [hf] at hb
  simp only at hb
  subst hb
  simp only [OrganizerModern.scope, hrun, hf, OrganizerModern.runCleanup]
  have hc := runHooks_ok Event.cleanup o.cleanup 0
    (verifyMocks o.t o.mocks ({ s2 with world := w }.emit (.body name (some t)))) hcleanup
  refine ⟨hc, ?_⟩
  rw [runHooks_trace_of_ok _ _ _ _ hc]
  simp [verifyMocks_trace, St.emit, htr, resetMocks_trace]

theorem OrganizerModern.runTest_ok (o : OrganizerModern) (test : testModern) (s : St)
    (hsetup : ∀ g ∈ o.setup, ∀ w, (g w).1 = .ok)
    (hcleanup : ∀ g ∈ o.cleanup, ∀ w, (g w).1 = .ok)
    (hbody : ∀ f, test.Func = some f → ∀ t w, (f t w).1 = .ok) :
    (o.runTest test s).1 = .ok ∧ (o.runTest test s).2.trace = s.trace ++ o.specTest test := by
  cases hF : test.Func with
  | none => simp [OrganizerModern.runTest, OrganizerModern.specTest, hF, St.emit]
  | some f =>
    have h := o.scope_ok test.Name f (.sub o.t test.Name) (s.emit (.scopeOpen o.t test.Name))
      hsetup hcleanup (hbody f hF _)
    rcases hrun : o.scope test.Name f (.sub o.t test.Name) (s.emit (.scopeOpen o.t test.Name))
      with ⟨r, s1⟩
    rw [hrun] at h
    simp only at h
    obtain ⟨hr, htr⟩ := h
    subst hr
    simp only [OrganizerModern.runTest, hF, tRun, hrun]
    simp [OrganizerModern.specTest, hF, St.emit, htr]

theorem OrganizerModern.runLoop_all_ok (o : OrganizerModern) (tests : List testModern) (s : St)
    (hsetup : ∀ g ∈ o.setup, ∀ w, (g w).1 = .ok)
    (hcleanup : ∀ g ∈ o.cleanup, ∀ w, (g w).1 = .ok)
    (hbody : ∀ test ∈ tests, ∀ f, test.Func = some f → ∀ t w, (f t w).1 = .ok) :
    (o.runLoop tests s).1 = .ok
      ∧ (o.runLoop tests s).2.trace = s.trace ++ tests.flatMap o.specTest := by
  induction tests generalizing s with
  | nil => simp [OrganizerModern.runLoop]
  | cons test rest ih =>
    have h1 := o.runTest_ok test s hsetup hcleanup (hbody test (List.mem_cons_self _ _))
    rcases hrun : o.runTest test s with ⟨r, s1⟩
    rw [hrun] at h1
    simp only at h1
    obtain ⟨hr, htr⟩ := h1
    subst hr
    have h2 := ih s1 (fun t ht => hbody t (List.mem_cons_of_mem _ ht))
    simp only [OrganizerModern.runLoop, hrun]
    refine ⟨h2.1, ?_⟩
    rw [h2.2, htr]
    simp

/-! ## The loop over the records -/

theorem Organizer.runLoop_append (o : Organizer) (xs ys : List Test) (s : St) :
    o.runLoop (xs ++ ys) s
      = match o.runLoop xs s with
        | (.ok, s1) => o.runLoop ys s1
        | (r, s1) => (r, s1) := by
  induction xs generalizing s with
  | nil => simp [Organizer.runLoop]
  | cons x xs ih =>
    rcases h : o.runOne x s with ⟨r, s1⟩
    cases r <;> simp [Organizer.runLoop, h, ih]

theorem OrganizerModern.runLoop_split (o : OrganizerModern) (xs ys : List testModern) (s : St) :
    o.runLoop (xs ++ ys) s
      = match o.runLoop xs s with
        | (.ok, s1) => o.runLoop ys s1
        | (r, s1) => (r, s1) := by
  induction xs generalizing s with
  | nil => simp [OrganizerModern.runLoop]
  | cons x xs ih =>
    rcases h : o.runTest x s with ⟨r, s1⟩
    cases r <;> simp [OrganizerModern.runLoop, h, ih]

/-- The loop of the simple variant reads `t`, `mocks` and `setup` only. -/
theorem Organizer.runLoop_congr (o o2 : Organizer) (ht : o.t = o2.t) (hm : o.mocks = o2.mocks)
    (hs : o.setup = o2.setup) (ts : List Test) (s : St) : o.runLoop ts s = o2.runLoop ts s := by
  induction ts generalizing s with
  | nil => simp [Organizer.runLoop]
  | cons x xs ih => simp [Organizer.runLoop, Organizer.runOne, ht, hm, hs, ih]

/-- The per-test routine of the enhanced variant reads `t`, `mocks`, `setup` and
`cleanup` only. -/
theorem OrganizerModern.runTest_congr (o o2 : OrganizerModern) (ht : o.t = o2.t)
    (hm : o.mocks = o2.mocks) (hs : o.setup = o2.setup) (hc : o.cleanup = o2.cleanup)
    (test : testModern) (s : St) : o.runTest test s = o2.runTest test s := by
  have h : o.scope = o2.scope := by
    funext name f t s
    simp [OrganizerModern.scope, OrganizerModern.runCleanup, ht, hm, hs, hc]
  simp [OrganizerModern.runTest, h, ht]

theorem OrganizerModern.runLoop_same (o o2 : OrganizerModern) (ht : o.t = o2.t)
    (hm : o.mocks = o2.mocks) (hs : o.setup = o2.setup) (hc : o.cleanup = o2.cleanup)
    (ts : List testModern) (s : St) : o.runLoop ts s = o2.runLoop ts s := by
  induction ts generalizing s with
  | nil => simp [OrganizerModern.runLoop]
  | cons x xs ih =>
    simp [OrganizerModern.runLoop, OrganizerModern.runTest_congr o o2 ht hm hs hc, ih]

/-! ## The shape of one sub-scope, whatever the callbacks do -/

theorem quiet_not_body (e : Event) (h : e.quiet = true) : e.isBody = false := by
  cases e <;> simp_all [Event.quiet, Event.isBody]

theorem quiet_no_name (e : Event) (h : e.quiet = true) : e.testName = none := by
  cases e <;> simp_all [Event.quiet, Event.testName]

/-- A hook loop adds steps of its own kind only. -/
theorem runHooks_trace_evs (ev : Nat → Event) (fs : List Hook) (i : Nat) (s : St) :
    ∃ evs, (runHooks ev fs i s).2.trace = s.trace ++ evs ∧ ∀ e ∈ evs, ∃ k, e = ev k := by
  induction fs generalizing i s with
  | nil => exact ⟨[], by simp [runHooks]⟩
  | cons f fs ih =>
    rcases hf : f s.world with ⟨r, w⟩
    cases r
    · obtain ⟨evs, h1, h2⟩ := ih (i + 1) ({ s with world := w }.emit (ev i))
      refine ⟨ev i :: evs, ?_, ?_⟩
      · simp only [runHooks, hf, h1]
        simp [St.emit]
      · intro e he
        rcases List.mem_cons.mp he with rfl | he
        · exact ⟨i, rfl⟩
        · exact h2 e he
    · exact ⟨[ev i], by simp [runHooks, hf, St.emit], by simp⟩
    · exact ⟨[ev i], by simp [runHooks, hf, St.emit], by simp⟩

theorem runHooks_setup_quiet (fs : List Hook) (i : Nat) (s : St) :
    ∃ evs, (runHooks Event.setup fs i s).2.trace = s.trace ++ evs
      ∧ ∀ e ∈ evs, e.quiet = true := by
  obtain ⟨evs, h1, h2⟩ := runHooks_trace_evs Event.setup fs i s
  refine ⟨evs, h1, fun e he => ?_⟩
  obtain ⟨k, rfl⟩ := h2 e he
  rfl

theorem runHooks_cleanup_quiet (fs : List Hook) (i : Nat) (s : St) :
    ∃ evs, (runHooks Event.cleanup fs i s).2.trace = s.trace ++ evs
      ∧ ∀ e ∈ evs, e.quiet = true := by
  obtain ⟨evs, h1, h2⟩ := runHooks_trace_evs Event.cleanup fs i s
  refine ⟨evs, h1, fun e he => ?_⟩
  obtain ⟨k, rfl⟩ := h2 e he
  rfl

/-- The steps of one sub-scope: steps on mocks and setup hooks, then, when the
setup loop has ended normally and only then, the body followed by steps on
mocks and cleanup hooks. -/
theorem OrganizerModern.scope_shape (o : OrganizerModern) (name : String) (f : HookT) (t : T)
    (s : St) :
    ∃ pre post, (o.scope name f t s).2.trace = s.trace ++ pre ++ post
      ∧ (∀ e ∈ pre, e.quiet = true)
      ∧ ((post = [] ∧ (runHooks Event.setup o.setup 0 (resetMocks o.mocks s)).1 ≠ .ok)
        ∨ (∃ tail, post = .body name (some t) :: tail ∧ (∀ e ∈ tail, e.quiet = true)
            ∧ (runHooks Event.setup o.setup 0 (resetMocks o.mocks s)).1 = .ok)) := by
  obtain ⟨evs, h1, h2⟩ := runHooks_setup_quiet o.setup 0 (resetMocks o.mocks s)
  have hpre : ∀ e ∈ o.mocks.map Event.reset ++ evs, e.quiet = true := by
    intro e he
    rcases List.mem_append.mp he with he | he
    · obtain ⟨m, _, rfl⟩ := List.mem_map.mp he
      rfl
    · exact h2 e he
  rcases hrun : runHooks Event.setup o.setup 0 (resetMocks o.mocks s) with ⟨r, s2⟩
  rw [hrun] at h1
  simp only [resetMocks_trace] at h1
  have hfail : r ≠ .ok →
      ∃ pre post, (o.scope name f t s).2.trace = s.trace ++ pre ++ post
        ∧ (∀ e ∈ pre, e.quiet = true)
        ∧ ((post = [] ∧ r ≠ .ok)
          ∨ (∃ tail, post = .body name (some t) :: tail ∧ (∀ e ∈ tail, e.quiet = true)
              ∧ r = .ok)) := by
    intro hr
    refine ⟨o.mocks.map Event.reset ++ evs, [], ?_, hpre, Or.inl ⟨rfl, hr⟩⟩
    cases r
    · exact absurd rfl hr
    · simp [OrganizerModern.scope, hrun, h1]
    · simp [OrganizerModern.scope, hrun, h1]
  cases r with
  | abort => exact hfail (by decide)
  | panic => exact hfail (by decide)
  | ok =>
    refine ⟨o.mocks.map Event.reset ++ evs, ?_⟩
    rcases hf : f t s2.world with ⟨rb, w⟩
    cases rb with
    | ok =>
      obtain ⟨cs, c1, c2⟩ := runHooks_cleanup_quiet o.cleanup 0
        (verifyMocks o.t o.mocks ({ s2 with world := w }.emit (.body name (some t))))
      refine ⟨.body name (some t) :: (o.mocks.map (fun m => Event.verify m o.t) ++ cs), ?_, hpre,
        Or.inr ⟨_, rfl, ?_, rfl⟩⟩
      · simp only [OrganizerModern.scope, hrun, hf, OrganizerModern.runCleanup, c1]
        simp [verifyMocks_trace, St.emit, h1]
      · intro e he
        rcases List.mem_append.mp he with he | he
        · obtain ⟨m, _, rfl⟩ := List.mem_map.mp he
          rfl
        · exact c2 e he
    | abort =>
      obtain ⟨cs, c1, c2⟩ := runHooks_cleanup_quiet o.cleanup 0
        ({ s2 with world := w }.emit (.body name (some t)))
      refine ⟨.body name (some t) :: cs, ?_, hpre, Or.inr ⟨_, rfl, c2, rfl⟩⟩
      rcases hc : runHooks Event.cleanup o.cleanup 0
        ({ s2 with world := w }.emit (.body name (some t))) with ⟨rc, s4⟩
      rw [hc] at c1
      cases rc <;> simp_all [OrganizerModern.scope, OrganizerModern.runCleanup, St.emit]
    | panic =>
      obtain ⟨cs, c1, c2⟩ := runHooks_cleanup_quiet o.cleanup 0
        ({ s2 with world := w }.emit (.body name (some t)))
      refine ⟨.body name (some t) :: cs, ?_, hpre, Or.inr ⟨_, rfl, c2, rfl⟩⟩
      rcases hc : runHooks Event.cleanup o.cleanup 0
        ({ s2 with world := w }.emit (.body name (some t))) with ⟨rc, s4⟩
      rw [hc] at c1
      cases rc <;> simp_all [OrganizerModern.scope, OrganizerModern.runCleanup, St.emit]

/-- The steps of the per-test routine on one record: they name no test but that
record, and at most one of them is a body call, the call of the body of the
record with the context of its sub-scope; it is there when the record has a body
and the setup loop ends normally. -/
theorem OrganizerModern.runTest_shape (o : OrganizerModern) (test : testModern) (s : St) :
    ∃ evs, (o.runTest test s).2.trace = s.trace ++ evs
      ∧ evs.countP Event.isBody ≤ 1
      ∧ (∀ e ∈ evs, ∀ n, e.testName = some n → n = test.Name)
      ∧ (∀ e ∈ evs, e.isBody = true → e = .body test.Name (some (.sub o.t test.Name)))
      ∧ (∀ f, test.Func = some f →
          (runHooks Event.setup o.setup 0
            (resetMocks o.mocks (s.emit (.scopeOpen o.t test.Name)))).1 = .ok →
          evs.countP Event.isBody = 1) := by
  cases hF : test.Func with
  | none =>
    refine ⟨[.disabled test.Name], ?_, ?_, ?_, ?_, ?_⟩
    · simp [OrganizerModern.runTest, hF, St.emit]
    · simp [Event.isBody]
    · intro e he n hn
      simp at he
      subst he
      simpa [Event.testName] using hn.symm
    · intro e he hb
      simp at he
      subst he
      simp [Event.isBody] at hb
    · intro f hf
      simp at hf
  | some f =>
    obtain ⟨pre, post, htr, hpre, hpost⟩ := o.scope_shape test.Name f (.sub o.t test.Name)
      (s.emit (.scopeOpen o.t test.Name))
    have hpre0 : pre.countP Event.isBody = 0 :=
      List.countP_eq_zero.mpr (fun e he => by simp [quiet_not_body e (hpre e he)])
    have hcount : post.countP Event.isBody ≤ 1
        ∧ ((runHooks Event.setup o.setup 0
            (resetMocks o.mocks (s.emit (.scopeOpen o.t test.Name)))).1 = .ok →
          post.countP Event.isBody = 1)
        ∧ (∀ e ∈ post, ∀ n, e.testName = some n → n = test.Name)
        ∧ (∀ e ∈ post, e.isBody = true → e = .body test.Name (some (.sub o.t test.Name))) := by
      rcases hpost with ⟨rfl, hne⟩ | ⟨tail, rfl, htail, _⟩
      · exact ⟨by simp, fun h => absurd h hne, by simp, by simp⟩
      · have ht0 : tail.countP Event.isBody = 0 :=
          List.countP_eq_zero.mpr (fun e he => by simp [quiet_not_body e (htail e he)])
        refine ⟨by simp [List.countP_cons, ht0, Event.isBody],
          fun _ => by simp [List.countP_cons, ht0, Event.isBody], ?_, ?_⟩
        · intro e he n hn
          rcases List.mem_cons.mp he with rfl | he
          · simpa [Event.testName] using hn.symm
          · simp [quiet_no_name e (htail e he)] at hn
        · intro e he hb
          rcases List.mem_cons.mp he with rfl | he
          · rfl
          · simp [quiet_not_body e (htail e he)] at hb
    obtain ⟨hc1, hc2, hc3, hc4⟩ := hcount
    have hopen : ∀ e ∈ pre, ∀ n, e.testName = some n → n = test.Name := by
      intro e he n hn
      simp [quiet_no_name e (hpre e he)] at hn
    have hopenb : ∀ e ∈ pre, e.isBody = true → e = .body test.Name (some (.sub o.t test.Name)) := by
      intro e he hb
      simp [quiet_not_body e (hpre e he)] at hb
    rcases hsc : o.scope test.Name f (.sub o.t test.Name) (s.emit (.scopeOpen o.t test.Name))
      with ⟨r, s1⟩
    rw [hsc] at htr
    simp only [emit_trace] at htr
    have hgen : ∀ close : List Event, (close = [] ∨ close = [.scopeClose o.t test.Name]) →
        (([Event.scopeOpen o.t test.Name] ++ pre ++ post ++ close).countP Event.isBody ≤ 1
        ∧ (∀ e ∈ [Event.scopeOpen o.t test.Name] ++ pre ++ post ++ close,
            ∀ n, e.testName = some n → n = test.Name)
        ∧ (∀ e ∈ [Event.scopeOpen o.t test.Name] ++ pre ++ post ++ close,
            e.isBody = true → e = .body test.Name (some (.sub o.t test.Name)))
        ∧ ((runHooks Event.setup o.setup 0
            (resetMocks o.mocks (s.emit (.scopeOpen o.t test.Name)))).1 = .ok →
          ([Event.scopeOpen o.t test.Name] ++ pre ++ post ++ close).countP Event.isBody = 1)) := by
      intro close hclose
      have hcl0 : close.countP Event.isBody = 0 := by
        rcases hclose with rfl | rfl <;> simp [Event.isBody]
      have hcln : ∀ e ∈ close, e = .scopeClose o.t test.Name := by
        intro e he
        rcases hclose with rfl | rfl <;> simp at he
        exact he
      refine ⟨?_, ?_, ?_, ?_⟩
      · simp only [List.countP_append, hpre0, hcl0]
        simpa [Event.isBody] using hc1
      · intro e he n hn
        simp only [List.mem_append, List.mem_singleton] at he
        rcases he with ((rfl | he) | he) | he
        · simpa [Event.testName] using hn.symm
        · exact hopen e he n hn
        · exact hc3 e he n hn
        · rw [hcln e he] at hn
          simpa [Event.testName] using hn.symm
      · intro e he hb
        simp only [List.mem_append, List.mem_singleton] at he
        rcases he with ((rfl | he) | he) | he
        · simp [Event.isBody] at hb
        · exact hopenb e he hb
        · exact hc4 e he hb
        · rw [hcln e he] at hb
          simp [Event.isBody] at hb
      · intro hok
        simp only [List.countP_append, hpre0, hcl0]
        simpa [Event.isBody] using hc2 hok
    cases r with
    | panic =>
      obtain ⟨g1, g2, g3, g4⟩ := hgen [] (Or.inl rfl)
      refine ⟨[Event.scopeOpen o.t test.Name] ++ pre ++ post ++ [], ?_, g1, g2, g3, ?_⟩
      · simp only [OrganizerModern.runTest, hF, tRun, hsc, htr]
        simp
      · intro f2 _ hok
        exact g4 hok
    | ok =>
      obtain ⟨g1, g2, g3, g4⟩ := hgen [.scopeClose o.t test.Name] (Or.inr rfl)
      refine ⟨[Event.scopeOpen o.t test.Name] ++ pre ++ post ++ [.scopeClose o.t test.Name],
        ?_, g1, g2, g3, ?_⟩
      · simp only [OrganizerModern.runTest, hF, tRun, hsc, emit_trace, htr]
        simp
      · intro f2 _ hok
        exact g4 hok
    | abort =>
      obtain ⟨g1, g2, g3, g4⟩ := hgen [.scopeClose o.t test.Name] (Or.inr rfl)
      refine ⟨[Event.scopeOpen o.t test.Name] ++ pre ++ post ++ [.scopeClose o.t test.Name],
        ?_, g1, g2, g3, ?_⟩
      · simp only [OrganizerModern.runTest, hF, tRun, hsc, emit_trace, htr]
        simp
      · intro f2 _ hok
        exact g4 hok

/-! ## Mock isolation -/

theorem World.eq_of_fields (a b : World) (hh : a.heap = b.heap) (hv : a.vars = b.vars) : a = b := by
  cases a
  cases b
  simp_all

theorem St.eq_of_parts (a b : St) (hw : a.world = b.world) (ht : a.trace = b.trace)
    (ha : a.asserted = b.asserted) : a = b := by
  cases a
  cases b
  simp_all

/-- The reset loop forgets what the registered mocks held. -/
theorem resetMocks_agree (ms : List MockRef) (s s2 : St) (h : St.agreeOff ms s s2)
    (e : Event) : resetMocks ms (s.emit e) = resetMocks ms (s2.emit e) := by
  obtain ⟨ht, ha, hv, hh⟩ := h
  apply St.eq_of_parts
  · apply World.eq_of_fields
    · funext r
      rw [resetMocks_heap, resetMocks_heap]
      by_cases hr : r ∈ ms
      · simp [hr]
      · simp [hr, emit_world, hh r hr]
    · rw [resetMocks_vars, resetMocks_vars]
      exact hv
  · rw [resetMocks_trace, resetMocks_trace, emit_trace, emit_trace, ht]
  · rw [resetMocks_asserted, resetMocks_asserted]
    exact ha

/-- A run of the loop only adds steps. -/
theorem OrganizerModern.runLoop_trace_ext (o : OrganizerModern) (ts : List testModern) (s : St) :
    ∃ evs, (o.runLoop ts s).2.trace = s.trace ++ evs := by
  induction ts generalizing s with
  | nil => exact ⟨[], by simp [OrganizerModern.runLoop]⟩
  | cons x xs ih =>
    obtain ⟨e1, h1, _⟩ := o.runTest_shape x s
    rcases hrun : o.runTest x s with ⟨r, s1⟩
    rw [hrun] at h1
    simp only at h1
    cases r with
    | ok =>
      obtain ⟨e2, h2⟩ := ih s1
      exact ⟨e1 ++ e2, by simp [OrganizerModern.runLoop, hrun, h2, h1]⟩
    | abort => exact ⟨e1, by simp [OrganizerModern.runLoop, hrun, h1]⟩
    | panic => exact ⟨e1, by simp [OrganizerModern.runLoop, hrun, h1]⟩

/-! ## Counting resets and verifications -/

theorem countP_reset_map (m : MockRef) (ms : List MockRef) :
    (ms.map Event.reset).countP (Event.isReset m) = ms.count m := by
  induction ms with
  | nil => rfl
  | cons x xs ih => simp [List.countP_cons, List.count_cons, ih, Event.isReset]

theorem countP_verify_map (m : MockRef) (t : T) (ms : List MockRef) :
    (ms.map (fun x => Event.verify x t)).countP (Event.isVerify m) = ms.count m := by
  induction ms with
  | nil => rfl
  | cons x xs ih => simp [List.countP_cons, List.count_cons, ih, Event.isVerify]

theorem countP_zero_of_forall (p : Event → Bool) (l : List Event) (h : ∀ e ∈ l, p e = false) :
    l.countP p = 0 :=
  List.countP_eq_zero.mpr (fun e he => by simp [h e he])

theorem Organizer.specTest_count (o : Organizer) (test : Test) (m : MockRef) :
    (o.specTest test).countP (Event.isReset m)
        = (if test.Func.isSome then o.mocks.count m else 0)
      ∧ (o.specTest test).countP (Event.isVerify m)
        = (if test.Func.isSome then o.mocks.count m else 0) := by
  have h1 : ((List.range o.setup.length).map Event.setup).countP (Event.isReset m) = 0 :=
    countP_zero_of_forall _ _ (fun e he => by
      obtain ⟨k, _, rfl⟩ := List.mem_map.mp he
      rfl)
  have h2 : ((List.range o.setup.length).map Event.setup).countP (Event.isVerify m) = 0 :=
    countP_zero_of_forall _ _ (fun e he => by
      obtain ⟨k, _, rfl⟩ := List.mem_map.mp he
      rfl)
  have h3 : (o.mocks.map Event.reset).countP (Event.isVerify m) = 0 :=
    countP_zero_of_forall _ _ (fun e he => by
      obtain ⟨k, _, rfl⟩ := List.mem_map.mp he
      rfl)
  have h4 : (o.mocks.map (fun x => Event.verify x o.t)).countP (Event.isReset m) = 0 :=
    countP_zero_of_forall _ _ (fun e he => by
      obtain ⟨k, _, rfl⟩ := List.mem_map.mp he
      rfl)
  cases hF : test.Func with
  | none => simp [Organizer.specTest, hF, Event.isReset, Event.isVerify]
  | some f =>
    simp only [Organizer.specTest, hF, List.countP_append, h1, h2, h3, h4, countP_reset_map,
      countP_verify_map]
    simp [Event.isReset, Event.isVerify]

theorem OrganizerModern.specTest_counts (o : OrganizerModern) (test : testModern) (m : MockRef) :
    (o.specTest test).countP (Event.isReset m)
        = (if test.Func.isSome then o.mocks.count m else 0)
      ∧ (o.specTest test).countP (Event.isVerify m)
        = (if test.Func.isSome then o.mocks.count m else 0) := by
  have h1 : ((List.range o.setup.length).map Event.setup).countP (Event.isReset m) = 0 :=
    countP_zero_of_forall _ _ (fun e he => by
      obtain ⟨k, _, rfl⟩ := List.mem_map.mp he
      rfl)
  have h2 : ((List.range o.setup.length).map Event.setup).countP (Event.isVerify m) = 0 :=
    countP_zero_of_forall _ _ (fun e he => by
      obtain ⟨k, _, rfl⟩ := List.mem_map.mp he
      rfl)
  have h3 : (o.mocks.map Event.reset).countP (Event.isVerify m) = 0 :=
    countP_zero_of_forall _ _ (fun e he => by
      obtain ⟨k, _, rfl⟩ := List.mem_map.mp he
      rfl)
  have h4 : (o.mocks.map (fun x => Event.verify x o.t)).countP (Event.isReset m) = 0 :=
    countP_zero_of_forall _ _ (fun e he => by
      obtain ⟨k, _, rfl⟩ := List.mem_map.mp he
      rfl)
  have h5 : ((List.range o.cleanup.length).map Event.cleanup).countP (Event.isReset m) = 0 :=
    countP_zero_of_forall _ _ (fun e he => by
      obtain ⟨k, _, rfl⟩ := List.mem_map.mp he
      rfl)
  have h6 : ((List.range o.cleanup.length).map Event.cleanup).countP (Event.isVerify m) = 0 :=
    countP_zero_of_forall _ _ (fun e he => by
      obtain ⟨k, _, rfl⟩ := List.mem_map.mp he
      rfl)
  cases hF : test.Func with
  | none => simp [OrganizerModern.specTest, hF, Event.isReset, Event.isVerify]
  | some f =>
    simp only [OrganizerModern.specTest, hF, List.countP_append, h1, h2, h3, h4, h5, h6,
      countP_reset_map, countP_verify_map]
    simp [Event.isReset, Event.isVerify]

/-- Counting over the records: each record with a body contributes `n`. -/
theorem countP_flatMap_records {α : Type} (p : Event → Bool) (spec : α → List Event)
    (enabled : α → Bool) (n : Nat) (ts : List α)
    (h : ∀ x, (spec x).countP p = if enabled x then n else 0) :
    (ts.flatMap spec).countP p = n * ts.countP enabled := by
  induction ts with
  | nil => simp
  | cons x xs ih =>
    simp only [List.flatMap_cons, List.countP_append, ih, h x, List.countP_cons]
    by_cases hx : enabled x = true
    · simp [hx, Nat.mul_add, Nat.add_comm]
    · simp [hx]

/-! ## Runs in which every callback called returns normally -/

/-- An iteration of the simple loop that ends normally has taken the listed
steps of its record. -/
theorem Organizer.runOne_trace_of_ok (o : Organizer) (test : Test) (s : St)
    (h : (o.runOne test s).1 = .ok) :
    (o.runOne test s).2.trace = s.trace ++ o.specTest test := by
  cases hF : test.Func with
  | none => simp [Organizer.runOne, Organizer.specTest, hF, St.emit]
  | some f =>
    rcases hrun : runHooks Event.setup o.setup 0
      (resetMocks o.mocks (s.emit (.running test.Name))) with ⟨r, s2⟩
    have htr := runHooks_trace_of_ok Event.setup o.setup 0
      (resetMocks o.mocks (s.emit (.running test.Name)))
    rw [hrun] at htr
    cases r with
    | abort => simp [Organizer.runOne, hF, hrun] at h
    | panic => simp [Organizer.runOne, hF, hrun] at h
    | ok =>
      have htr2 := htr rfl
      simp only at htr2
      rcases hf : f s2.world with ⟨rb, w⟩
      cases rb with
      | abort => simp [Organizer.runOne, hF, hrun, hf] at h
      | panic => simp [Organizer.runOne, hF, hrun, hf] at h
      | ok =>
        simp only [Organizer.runOne, hF, hrun, hf]
        simp [Organizer.specTest, hF, verifyMocks_trace, St.emit, htr2, resetMocks_trace]

/-- A simple loop that ends normally has taken the listed steps of its records,
record after record. -/
theorem Organizer.runLoop_trace_of_ok (o : Organizer) (ts : List Test) (s : St)
    (h : (o.runLoop ts s).1 = .ok) :
    (o.runLoop ts s).2.trace = s.trace ++ ts.flatMap o.specTest := by
  induction ts generalizing s with
  | nil => simp [Organizer.runLoop]
  | cons x xs ih =>
    have h1 := o.runOne_trace_of_ok x s
    rcases hrun : o.runOne x s with ⟨r, s1⟩
    rw [hrun] at h1
    cases r with
    | abort => simp [Organizer.runLoop, hrun] at h
    | panic => simp [Organizer.runLoop, hrun] at h
    | ok =>
      simp only [Organizer.runLoop, hrun] at h ⊢
      rw [ih s1 h, h1 rfl]
      simp

/-- The outcome of a sub-scope is `ok` exactly when the setup loop, the body and
the cleanup loop that follows the verification all ended normally. -/
theorem OrganizerModern.scope_ok_iff (o : OrganizerModern) (name : String) (f : HookT) (t : T)
    (s : St) :
    (o.scope name f t s).1 = .ok ↔
      ∃ s2 w, runHooks Event.setup o.setup 0 (resetMocks o.mocks s) = (.ok, s2)
        ∧ f t s2.world = (.ok, w)
        ∧ (o.runCleanup (verifyMocks o.t o.mocks
            ({ s2 with world := w }.emit (.body name (some t))))).1 = .ok := by
  rcases hrun : runHooks Event.setup o.setup 0 (resetMocks o.mocks s) with ⟨r, s2⟩
  cases r with
  | abort => simp [OrganizerModern.scope, hrun]
  | panic => simp [OrganizerModern.scope, hrun]
  | ok =>
    rcases hf : f t s2.world with ⟨rb, w⟩
    cases rb with
    | ok => simp [OrganizerModern.scope, hrun, hf]
    | abort =>
      simp only [OrganizerModern.scope, hrun, hf]
      generalize o.runCleanup ({ s2 with world := w }.emit (.body name (some t))) = res
      rcases res with ⟨rc, s4⟩
      cases rc <;> simp [hf]
    | panic =>
      simp only [OrganizerModern.scope, hrun, hf]
      generalize o.runCleanup ({ s2 with world := w }.emit (.body name (some t))) = res
      rcases res with ⟨rc, s4⟩
      cases rc <;> simp [hf]

/-- A sub-scope that ends normally has taken its full list of steps. -/
theorem OrganizerModern.scope_trace_of_ok (o : OrganizerModern) (name : String) (f : HookT)
    (t : T) (s : St) (h : (o.scope name f t s).1 = .ok) :
    (o.scope name f t s).2.trace = s.trace ++ o.mocks.map Event.reset
        ++ (List.range o.setup.length).map Event.setup ++ [.body name (some t)]
        ++ o.mocks.map (fun m => Event.verify m o.t)
        ++ (List.range o.cleanup.length).map Event.cleanup := by
  obtain ⟨s2, w, hrun, hf, hc⟩ := (o.scope_ok_iff name f t s).mp h
  have htr := runHooks_trace_of_ok Event.setup o.setup 0 (resetMocks o.mocks s) (by rw [hrun])
  rw [hrun] at htr
  simp only at htr
  simp only [OrganizerModern.runCleanup] at hc
  simp only [OrganizerModern.scope, hrun, hf, OrganizerModern.runCleanup]
  rw [runHooks_trace_of_ok _ _ _ _ hc]
  simp [verifyMocks_trace, St.emit, htr, resetMocks_trace]

/-- The per-test routine in which every callback called returns normally
returns to the loop, having taken the listed steps of its record. -/
theorem OrganizerModern.runTest_of_normal (o : OrganizerModern) (test : testModern) (s : St)
    (h : o.normalTest test s = true) :
    (o.runTest test s).1 = .ok ∧ (o.runTest test s).2.trace = s.trace ++ o.specTest test := by
  cases hF : test.Func with
  | none => simp [OrganizerModern.runTest, OrganizerModern.specTest, hF, St.emit]
  | some f =>
    simp only [OrganizerModern.normalTest, hF, decide_eq_true_eq] at h
    have htr := o.scope_trace_of_ok test.Name f (.sub o.t test.Name)
      (s.emit (.scopeOpen o.t test.Name)) h
    rcases hsc : o.scope test.Name f (.sub o.t test.Name) (s.emit (.scopeOpen o.t test.Name))
      with ⟨r, s1⟩
    rw [hsc] at h htr
    simp only at h htr
    subst h
    simp only [OrganizerModern.runTest, hF, tRun, hsc]
    simp [OrganizerModern.specTest, hF, St.emit, htr]

/-- The loop in which every callback called returns normally ends normally,
having taken the listed steps of its records, record after record. -/
theorem OrganizerModern.runLoop_of_normal (o : OrganizerModern) (ts : List testModern)
    (s : St) (h : o.normalLoop ts s = true) :
    (o.runLoop ts s).1 = .ok ∧ (o.runLoop ts s).2.trace = s.trace ++ ts.flatMap o.specTest := by
  induction ts generalizing s with
  | nil => simp [OrganizerModern.runLoop]
  | cons x xs ih =>
    simp only [OrganizerModern.normalLoop, Bool.and_eq_true] at h
    obtain ⟨hx, hxs⟩ := h
    obtain ⟨h1, h2⟩ := o.runTest_of_normal x s hx
    rcases hrun : o.runTest x s with ⟨r, s1⟩
    rw [hrun] at h1 h2 hxs
    simp only at h1 h2 hxs
    subst h1
    obtain ⟨h3, h4⟩ := ih s1 hxs
    simp only [OrganizerModern.runLoop, hrun]
    refine ⟨h3, ?_⟩
    rw [h4, h2]
    simp

/-- `Run` in which every callback called returns normally ends normally, having
taken the listed steps of the records it processes. -/
theorem OrganizerModern.run_of_normal (o : OrganizerModern) (s : St)
    (h : o.normalRun s = true) :
    (o.Run s).1 = .ok ∧ (o.Run s).2.trace = s.trace ++ o.executed.flatMap o.specTest := by
  cases honly : o.only with
  | none =>
    simp only [OrganizerModern.normalRun, honly] at h
    simpa [OrganizerModern.Run, OrganizerModern.executed, honly] using
      o.runLoop_of_normal o.tests s h
  | some test =>
    simp only [OrganizerModern.normalRun, honly] at h
    simpa [OrganizerModern.Run, OrganizerModern.executed, honly] using
      o.runTest_of_normal test s h

/-! ## The claims -/

/-- C1. Simple variant: in a run in which every setup hook and every test body
that is called returns normally, that is a run that `Run` ends normally, since
nothing else makes it end otherwise, the steps `Run` takes are exactly, test
after test in insertion order, one disabled report for a test without a body
and, for a test with a body, the running report, the reset of every mock in
registration order, every setup hook in registration order, the body, and the
verification of every mock in registration order. -/
theorem simple_run_trace (o : Organizer) (s : St) (hrun : (o.Run s).1 = .ok) :
    (o.Run s).2.trace = s.trace ++ o.tests.flatMap o.specTest :=
  o.runLoop_trace_of_ok o.tests s hrun

theorem exSimple_hooks : ∀ f ∈ exSimple.setup, ∀ w, (f w).1 = .ok := by
  intro f hf w
  have h : exSimple.setup = [hookIncr] := rfl
  rw [h] at hf
  simp at hf
  subst hf
  rfl

theorem exSimple_bodies :
    ∀ test ∈ exSimple.tests, ∀ f, test.Func = some f → ∀ w, (f w).1 = .ok := by
  intro test ht f hF w
  have h : exSimple.tests = [⟨"a", none⟩, ⟨"b", some (hookExpect 0 "Foo")⟩] := rfl
  rw [h] at ht
  simp at ht
  rcases ht with rfl | rfl
  · simp at hF
  · simp at hF
    subst hF
    rfl

theorem simple_run_trace_witness :
    (exGuardedSimple.Run (St.init World.blank)).2.trace
      = (St.init World.blank).trace ++ exGuardedSimple.tests.flatMap exGuardedSimple.specTest :=
  simple_run_trace exGuardedSimple (St.init World.blank) (by decide)

/-- The run of `exGuardedSimple`, step by step: the body of `g` returns normally
in this run, though it would leave through `FailNow` in another world. -/
theorem exGuardedSimple_trace :
    (hookGuarded World.blank).1 = .abort
      ∧ (exGuardedSimple.Run (St.init World.blank)).1 = .ok
      ∧ (exGuardedSimple.Run (St.init World.blank)).2.trace
        = [.disabled "a", .running "g", .reset 0, .setup 0, .body "g" none,
           .verify 0 (.root "suite")] := by
  decide

/-- The run of `exSimple`, step by step. -/
theorem exSimple_trace : (exSimple.Run (St.init World.blank)).2.trace
    = [.disabled "a", .running "b", .reset 0, .setup 0, .body "b" none,
       .verify 0 (.root "suite")] := by
  decide

/-- C2. Enhanced variant without an override: in a run in which every setup
hook, body and cleanup hook that is called returns normally, `Run` returns
normally and the steps it takes are exactly, test after test in insertion order,
one disabled report for a test without a body and, for a test with a body, one
sub-scope under the name of the test that holds the reset of every mock, every
setup hook, the body called with the context of the sub-scope, the verification
of every mock and then every cleanup hook once, each group in registration
order. -/
theorem modern_run_trace (o : OrganizerModern) (s : St) (honly : o.only = none)
    (hnormal : o.normalRun s = true) :
    (o.Run s).1 = .ok ∧ (o.Run s).2.trace = s.trace ++ o.tests.flatMap o.specTest := by
  have h := o.run_of_normal s hnormal
  simpa [OrganizerModern.executed, honly] using h

theorem hookIncr_ok : ∀ g ∈ [hookIncr], ∀ w, (g w).1 = .ok := by
  intro g hg w
  simp at hg
  subst hg
  rfl

theorem exModern_bodies :
    ∀ test ∈ exModern.tests, ∀ f, test.Func = some f → ∀ t w, (f t w).1 = .ok := by
  intro test ht f hF t w
  have h : exModern.tests = [⟨"a", none⟩, ⟨"b", some (bodyOf (hookExpect 0 "Foo"))⟩] := rfl
  rw [h] at ht
  simp at ht
  rcases ht with rfl | rfl
  · simp at hF
  · simp at hF
    subst hF
    rfl

theorem modern_run_trace_witness :
    (exGuardedModern.Run (St.init World.blank)).1 = .ok
      ∧ (exGuardedModern.Run (St.init World.blank)).2.trace
        = (St.init World.blank).trace ++ exGuardedModern.tests.flatMap exGuardedModern.specTest :=
  modern_run_trace exGuardedModern (St.init World.blank) rfl (by decide)

/-- The run of `exGuardedModern`, step by step: the body of `g` and the cleanup
hook return normally in this run, though they would not in another world. -/
theorem exGuardedModern_trace :
    (bodyOf hookGuarded (.sub (.root "suite") "g") World.blank).1 = .abort
      ∧ (exGuardedModern.Run (St.init World.blank)).2.trace
        = [.disabled "a", .scopeOpen (.root "suite") "g", .reset 0, .setup 0,
           .body "g" (some (.sub (.root "suite") "g")), .verify 0 (.root "suite"), .cleanup 0,
           .scopeClose (.root "suite") "g"] := by
  decide

/-- The run of `exModern`, step by step. -/
theorem exModern_trace : (exModern.Run (St.init World.blank)).2.trace
    = [.disabled "a", .scopeOpen (.root "suite") "b", .reset 0, .setup 0,
       .body "b" (some (.sub (.root "suite") "b")), .verify 0 (.root "suite"), .cleanup 0,
       .scopeClose (.root "suite") "b"] := by
  decide

/-- C3, as stated, fails: the first cleanup hook of `exCleanupPanics` panics, so
after the body of `t` has left through `FailNow` the second cleanup hook is never
called. -/
theorem cleanup_guarantee_counterexample :
    exCleanupPanics.cleanup.length = 2
      ∧ (bodyOf hookAbort (.sub (.root "suite") "t") World.blank).1 = .abort
      ∧ (exCleanupPanics.Run (St.init World.blank)).2.trace
          = [.scopeOpen (.root "suite") "t", .body "t" (some (.sub (.root "suite") "t")),
             .cleanup 0]
      ∧ Event.cleanup 1 ∉ (exCleanupPanics.Run (St.init World.blank)).2.trace := by
  decide

/-- C3, amended. Enhanced variant: when the resets and the setup hooks of an
executed test have returned normally and its body does not return normally (it
panics or leaves through `FailNow`), then, provided the cleanup hooks themselves
return normally, the steps that follow the body are exactly the cleanup hooks,
each once, in registration order (and then the return of the sub-scope to `Run`
unless the body panicked). -/
theorem cleanup_after_failed_body (o : OrganizerModern) (test : testModern) (f : HookT)
    (s s2 : St) (r : Outcome) (w : World) (hF : test.Func = some f)
    (hsetup : runHooks Event.setup o.setup 0
      (resetMocks o.mocks (s.emit (.scopeOpen o.t test.Name))) = (.ok, s2))
    (hbody : f (.sub o.t test.Name) s2.world = (r, w)) (hr : r ≠ .ok)
    (hcleanup : (o.runCleanup
      ({ s2 with world := w }.emit (.body test.Name (some (.sub o.t test.Name))))).1 = .ok) :
    (o.runTest test s).2.trace
      = s.trace ++ [.scopeOpen o.t test.Name] ++ o.mocks.map Event.reset
          ++ (List.range o.setup.length).map Event.setup
          ++ [.body test.Name (some (.sub o.t test.Name))]
          ++ (List.range o.cleanup.length).map Event.cleanup
          ++ (if r = .panic then [] else [.scopeClose o.t test.Name]) := by
  have hs2 := runHooks_trace_of_ok Event.setup o.setup 0 _ (by rw [hsetup])
  rw [hsetup] at hs2
  simp only at hs2
  have hc := runHooks_trace_of_ok Event.cleanup o.cleanup 0 _ hcleanup
  rcases hrun : o.runCleanup
    ({ s2 with world := w }.emit (.body test.Name (some (.sub o.t test.Name)))) with ⟨rc, s4⟩
  rw [hrun] at hcleanup
  simp only at hcleanup
  subst hcleanup
  simp only [OrganizerModern.runCleanup] at hrun
  rw [hrun] at hc
  simp only at hc
  cases r with
  | ok => exact absurd rfl hr
  | abort =>
    simp only [OrganizerModern.runTest, hF, tRun, OrganizerModern.scope, hsetup, hbody,
      OrganizerModern.runCleanup, hrun]
    simp [St.emit, hc, hs2, resetMocks_trace]
  | panic =>
    simp only [OrganizerModern.runTest, hF, tRun, OrganizerModern.scope, hsetup, hbody,
      OrganizerModern.runCleanup, hrun]
    simp [St.emit, hc, hs2, resetMocks_trace]

theorem cleanup_after_failed_body_witness :
    (exBodyAborts.runTest ⟨"t", some (bodyOf hookAbort)⟩ (St.init World.blank)).2.trace
      = (St.init World.blank).trace ++ [.scopeOpen exBodyAborts.t "t"]
          ++ exBodyAborts.mocks.map Event.reset
          ++ (List.range exBodyAborts.setup.length).map Event.setup
          ++ [.body "t" (some (.sub exBodyAborts.t "t"))]
          ++ (List.range exBodyAborts.cleanup.length).map Event.cleanup
          ++ (if Outcome.abort = .panic then [] else [.scopeClose exBodyAborts.t "t"]) :=
  cleanup_after_failed_body exBodyAborts ⟨"t", some (bodyOf hookAbort)⟩ (bodyOf hookAbort)
    (St.init World.blank)
    (runHooks Event.setup exBodyAborts.setup 0
      (resetMocks exBodyAborts.mocks
        ((St.init World.blank).emit (.scopeOpen exBodyAborts.t "t")))).2
    .abort _ rfl rfl rfl (by decide) rfl

/-- The run of `exBodyAborts`, step by step. -/
theorem exBodyAborts_trace : (exBodyAborts.Run (St.init World.blank)).2.trace
    = [.scopeOpen (.root "suite") "t", .reset 0, .setup 0,
       .body "t" (some (.sub (.root "suite") "t")), .cleanup 0, .cleanup 1,
       .scopeClose (.root "suite") "t"] := by
  decide

/-- C4. Disabled skip, both variants: `NIt` appends the record with the given
name and no body, whatever function it was given, and when `Run` processes that
record it takes exactly one step, the disabled report with that name: no reset,
setup, body, verification, cleanup or sub-scope, and the world (so every mock)
is as before.  So a run that reaches the record ends with that single report. -/
theorem disabled_skip (o : Organizer) (om : OrganizerModern) (name : String)
    (f : Option Hook) (g : Option HookT) (s : St) :
    ((o.NIt name f).tests = o.tests ++ [⟨name, none⟩]
      ∧ (o.NIt name f).runOne ⟨name, none⟩ s
          = (.ok, { s with trace := s.trace ++ [.disabled name] })
      ∧ ((o.Run s).1 = .ok →
          (o.NIt name f).Run s
            = (.ok, { (o.Run s).2 with trace := (o.Run s).2.trace ++ [.disabled name] })))
    ∧ ((om.NIt name g).tests = om.tests ++ [⟨name, none⟩]
      ∧ (om.NIt name g).runTest ⟨name, none⟩ s
          = (.ok, { s with trace := s.trace ++ [.disabled name] })
      ∧ (om.only = none → (om.Run s).1 = .ok →
          (om.NIt name g).Run s
            = (.ok, { (om.Run s).2 with trace := (om.Run s).2.trace ++ [.disabled name] }))) := by
  refine ⟨⟨rfl, rfl, ?_⟩, ⟨rfl, rfl, ?_⟩⟩
  · intro h
    have hc := Organizer.runLoop_congr (o.NIt name f) o rfl rfl rfl
    rcases hrun : o.Run s with ⟨r, s1⟩
    rw [hrun] at h
    simp only at h
    subst h
    simp only [Organizer.Run] at hrun
    show (o.NIt name f).runLoop (o.tests ++ [⟨name, none⟩]) s = _
    rw [Organizer.runLoop_append, hc, hrun]
    simp [hc, Organizer.runLoop, Organizer.runOne, St.emit]
  · intro honly h
    have hc := OrganizerModern.runLoop_same (om.NIt name g) om rfl rfl rfl rfl
    rcases hrun : om.Run s with ⟨r, s1⟩
    rw [hrun] at h
    simp only at h
    subst h
    simp only [OrganizerModern.Run, honly] at hrun
    have honly2 : (om.NIt name g).only = none := honly
    simp only [OrganizerModern.Run, honly2]
    show (om.NIt name g).runLoop (om.tests ++ [⟨name, none⟩]) s = _
    rw [OrganizerModern.runLoop_split, hc, hrun]
    simp [hc, OrganizerModern.runLoop, OrganizerModern.runTest, St.emit]

theorem disabled_skip_witness :
    (exSimple.NIt "c" (some hookPanic)).Run (St.init World.blank)
        = (.ok, { (exSimple.Run (St.init World.blank)).2 with
            trace := (exSimple.Run (St.init World.blank)).2.trace ++ [.disabled "c"] })
      ∧ (exModern.NIt "c" (some (bodyOf hookPanic))).Run (St.init World.blank)
        = (.ok, { (exModern.Run (St.init World.blank)).2 with
            trace := (exModern.Run (St.init World.blank)).2.trace ++ [.disabled "c"] }) :=
  ⟨(disabled_skip exSimple exModern "c" (some hookPanic) (some (bodyOf hookPanic))
      (St.init World.blank)).1.2.2 (by decide),
   (disabled_skip exSimple exModern "c" (some hookPanic) (some (bodyOf hookPanic))
      (St.init World.blank)).2.2.2 rfl (by decide)⟩

/-- C5, as stated, fails: after `Only("x", nil)` the run of `exOnlyNil` is the
single disabled report for `x`, and no test body is executed. -/
theorem only_exclusive_counterexample :
    exOnlyNil.only.isSome = true
      ∧ (exOnlyNil.Run (St.init World.blank)).2.trace = [.disabled "x"]
      ∧ (exOnlyNil.Run (St.init World.blank)).2.trace.countP Event.isBody = 0 := by
  decide

/-- C5, amended. Enhanced variant with an override set: whatever records the
tests list holds, `Run` is the per-test routine on the override and nothing
else.  Its steps name no test but the override, so no record of the tests list
is reported, given a sub-scope or called; at most one test body is executed, the
override's; and exactly one when the override has a body and the setup hooks
return normally. -/
theorem only_exclusive (o : OrganizerModern) (test : testModern) (s : St)
    (honly : o.only = some test) :
    o.Run s = o.runTest test s
      ∧ (∀ ts, ({ o with tests := ts } : OrganizerModern).Run s = o.Run s)
      ∧ ∃ evs, (o.Run s).2.trace = s.trace ++ evs
          ∧ evs.countP Event.isBody ≤ 1
          ∧ (∀ e ∈ evs, ∀ n, e.testName = some n → n = test.Name)
          ∧ (∀ e ∈ evs, e.isBody = true → e = .body test.Name (some (.sub o.t test.Name)))
          ∧ (∀ f, test.Func = some f →
              (runHooks Event.setup o.setup 0
                (resetMocks o.mocks (s.emit (.scopeOpen o.t test.Name)))).1 = .ok →
              evs.countP Event.isBody = 1) := by
  have hrun : o.Run s = o.runTest test s := by simp [OrganizerModern.Run, honly]
  refine ⟨hrun, ?_, ?_⟩
  · intro ts
    rw [hrun]
    simp only [OrganizerModern.Run, honly]
    exact OrganizerModern.runTest_congr { o with tests := ts } o rfl rfl rfl rfl test s
  · rw [hrun]
    exact o.runTest_shape test s

theorem only_exclusive_witness :
    exOnly.Run (St.init World.blank) = exOnly.runTest ⟨"x", some (bodyOf hookIncr)⟩
        (St.init World.blank)
      ∧ (∀ ts, ({ exOnly with tests := ts } : OrganizerModern).Run (St.init World.blank)
          = exOnly.Run (St.init World.blank))
      ∧ ∃ evs, (exOnly.Run (St.init World.blank)).2.trace = (St.init World.blank).trace ++ evs
          ∧ evs.countP Event.isBody ≤ 1
          ∧ (∀ e ∈ evs, ∀ n, e.testName = some n → n = "x")
          ∧ (∀ e ∈ evs, e.isBody = true → e = .body "x" (some (.sub exOnly.t "x")))
          ∧ (∀ f, (some (bodyOf hookIncr) : Option HookT) = some f →
              (runHooks Event.setup exOnly.setup 0
                (resetMocks exOnly.mocks
                  ((St.init World.blank).emit (.scopeOpen exOnly.t "x")))).1 = .ok →
              evs.countP Event.isBody = 1) :=
  only_exclusive exOnly ⟨"x", some (bodyOf hookIncr)⟩ (St.init World.blank) rfl

/-- The run of `exOnly`, step by step: the two records of its tests list leave
no step. -/
theorem exOnly_trace : (exOnly.Run (St.init World.blank)).2.trace
    = [.scopeOpen (.root "suite") "x", .reset 0, .setup 0,
       .body "x" (some (.sub (.root "suite") "x")), .verify 0 (.root "suite"), .cleanup 0,
       .scopeClose (.root "suite") "x"] := by
  decide

/-- C6. Mock isolation, both variants.  Let `s` be the state in which `Run`
reaches an enabled test `T2`, whatever the tests before it did.  Right after
the reset loop of `T2` every registered mock has no expected call and no
recorded call; when the setup hooks and the body of `T2` return normally, what
its verification sees in each registered mock is what these left there, starting
from the cleared mocks; and nothing `T2` does or sees depends on what the
registered mocks held before: from a state that differs from `s` only in their
contents it takes the same steps, sees the same and ends in the same state. -/
theorem mock_isolation (o : Organizer) (om : OrganizerModern) (T2 : Test) (T2m : testModern)
    (f : Hook) (g : HookT) (s : St) (hF : T2.Func = some f) (hG : T2m.Func = some g) :
    ((∀ m ∈ o.mocks,
        (resetMocks o.mocks (s.emit (.running T2.Name))).world.heap m = Mock.cleared)
      ∧ (∀ s2 w, runHooks Event.setup o.setup 0
            (resetMocks o.mocks (s.emit (.running T2.Name))) = (.ok, s2) →
          f s2.world = (.ok, w) →
          (o.runOne T2 s).2.asserted = s.asserted ++ o.mocks.map (fun m => (m, w.heap m)))
      ∧ (∀ s1, St.agreeOff o.mocks s s1 → o.runOne T2 s1 = o.runOne T2 s))
    ∧ ((∀ m ∈ om.mocks,
        (resetMocks om.mocks (s.emit (.scopeOpen om.t T2m.Name))).world.heap m = Mock.cleared)
      ∧ (∀ s2 w, runHooks Event.setup om.setup 0
            (resetMocks om.mocks (s.emit (.scopeOpen om.t T2m.Name))) = (.ok, s2) →
          g (.sub om.t T2m.Name) s2.world = (.ok, w) →
          (om.runTest T2m s).2.asserted = s.asserted ++ om.mocks.map (fun m => (m, w.heap m)))
      ∧ (∀ s1, St.agreeOff om.mocks s s1 → om.runTest T2m s1 = om.runTest T2m s)) := by
  refine ⟨⟨?_, ?_, ?_⟩, ⟨?_, ?_, ?_⟩⟩
  · intro m hm
    simp [resetMocks_heap, hm]
  · intro s2 w hsetup hbody
    have ha := runHooks_asserted Event.setup o.setup 0
      (resetMocks o.mocks (s.emit (.running T2.Name)))
    rw [hsetup] at ha
    simp only [resetMocks_asserted, emit_asserted] at ha
    simp only [Organizer.runOne, hF, hsetup, hbody]
    simp [verifyMocks_asserted, St.emit, ha]
  · intro s1 h
    simp only [Organizer.runOne, hF]
    rw [resetMocks_agree o.mocks s s1 h]
  · intro m hm
    simp [resetMocks_heap, hm]
  · intro s2 w hsetup hbody
    have ha := runHooks_asserted Event.setup om.setup 0
      (resetMocks om.mocks (s.emit (.scopeOpen om.t T2m.Name)))
    rw [hsetup] at ha
    simp only [resetMocks_asserted, emit_asserted] at ha
    have hc := runHooks_asserted Event.cleanup om.cleanup 0
      (verifyMocks om.t om.mocks
        ({ s2 with world := w }.emit (.body T2m.Name (some (.sub om.t T2m.Name)))))
    rcases hrun : runHooks Event.cleanup om.cleanup 0
      (verifyMocks om.t om.mocks
        ({ s2 with world := w }.emit (.body T2m.Name (some (.sub om.t T2m.Name))))) with ⟨rc, s4⟩
    rw [hrun] at hc
    simp only [verifyMocks_asserted] at hc
    simp only [OrganizerModern.runTest, hG, tRun, OrganizerModern.scope, hsetup, hbody,
      OrganizerModern.runCleanup, hrun]
    cases rc <;> simp [St.emit, hc, ha]
  · intro s1 h
    simp only [OrganizerModern.runTest, hG, tRun, OrganizerModern.scope]
    rw [resetMocks_agree om.mocks s s1 h]

theorem used_agrees : St.agreeOff [0] (St.init World.used) (St.init World.blank) := by
  refine ⟨rfl, rfl, rfl, ?_⟩
  intro m hm
  simp at hm
  simp [St.init, World.used, World.blank, hm]

theorem mock_isolation_witness :
    (∀ m ∈ exSimple.mocks,
        (resetMocks exSimple.mocks ((St.init World.used).emit (.running "b"))).world.heap m
          = Mock.cleared)
      ∧ exSimple.runOne ⟨"b", some (hookExpect 0 "Foo")⟩ (St.init World.blank)
          = exSimple.runOne ⟨"b", some (hookExpect 0 "Foo")⟩ (St.init World.used)
      ∧ exModern.runTest ⟨"b", some (bodyOf (hookExpect 0 "Foo"))⟩ (St.init World.blank)
          = exModern.runTest ⟨"b", some (bodyOf (hookExpect 0 "Foo"))⟩ (St.init World.used) :=
  ⟨(mock_isolation exSimple exModern ⟨"b", some (hookExpect 0 "Foo")⟩
      ⟨"b", some (bodyOf (hookExpect 0 "Foo"))⟩ (hookExpect 0 "Foo")
      (bodyOf (hookExpect 0 "Foo")) (St.init World.used) rfl rfl).1.1,
   (mock_isolation exSimple exModern ⟨"b", some (hookExpect 0 "Foo")⟩
      ⟨"b", some (bodyOf (hookExpect 0 "Foo"))⟩ (hookExpect 0 "Foo")
      (bodyOf (hookExpect 0 "Foo")) (St.init World.used) rfl rfl).1.2.2 _ used_agrees,
   (mock_isolation exSimple exModern ⟨"b", some (hookExpect 0 "Foo")⟩
      ⟨"b", some (bodyOf (hookExpect 0 "Foo"))⟩ (hookExpect 0 "Foo")
      (bodyOf (hookExpect 0 "Foo")) (St.init World.used) rfl rfl).2.2.2 _ used_agrees⟩

/-- What the verification of `b` sees when the mock still held `Old` from an
earlier test: the expectation `b` itself recorded, and nothing older. -/
theorem exSimple_asserted_after_use :
    (exSimple.runOne ⟨"b", some (hookExpect 0 "Foo")⟩ (St.init World.used)).2.asserted
        = [(0, ⟨["Foo"], []⟩)]
      ∧ (exModern.runTest ⟨"b", some (bodyOf (hookExpect 0 "Foo"))⟩
          (St.init World.used)).2.asserted = [(0, ⟨["Foo"], []⟩)] := by
  decide

/-- C7. Failure isolation, enhanced variant without an override.  Let `T1` be
registered before `T2`, both with a body, let the run reach `T1`, let the body
of `T1` fail after the resets and setup hooks returned normally, and let the
sub-scope of `T1` contain the failure: what leaves it is not a panic.  Then
`Run`, once the records between the two are done, runs the whole per-test
routine on `T2`; and when the setup hooks, the cleanup hooks and the body of
`T2` return normally the steps of `T2` are its full lifecycle: the sub-scope,
the reset of every mock, every setup hook, the body, the verification of every
mock and every cleanup hook. -/
theorem failure_isolation (o : OrganizerModern) (before mid after : List testModern)
    (T1 T2 : testModern) (f1 f2 : HookT) (s s0 sb s4 sm : St) (r1 rc : Outcome) (w1 : World)
    (honly : o.only = none) (htests : o.tests = before ++ T1 :: (mid ++ T2 :: after))
    (hF1 : T1.Func = some f1) (hF2 : T2.Func = some f2)
    (hreach : o.runLoop before s = (.ok, s0))
    (hsetup1 : runHooks Event.setup o.setup 0
      (resetMocks o.mocks (s0.emit (.scopeOpen o.t T1.Name))) = (.ok, sb))
    (hbody1 : f1 (.sub o.t T1.Name) sb.world = (r1, w1)) (hfail : r1 ≠ .ok)
    (hclean1 : o.runCleanup
      ({ sb with world := w1 }.emit (.body T1.Name (some (.sub o.t T1.Name)))) = (rc, s4))
    (hcontained : (if rc = .ok then r1 else rc) ≠ .panic)
    (hmid : o.runLoop mid (s4.emit (.scopeClose o.t T1.Name)) = (.ok, sm)) :
    (o.Run s = match o.runTest T2 sm with
        | (.ok, s2) => o.runLoop after s2
        | (r, s2) => (r, s2))
      ∧ ((∀ g ∈ o.setup, ∀ w, (g w).1 = .ok) → (∀ g ∈ o.cleanup, ∀ w, (g w).1 = .ok) →
          (∀ t w, (f2 t w).1 = .ok) →
          ∃ rest, (o.Run s).2.trace = sm.trace ++ o.specTest T2 ++ rest) := by
  have hT1 : o.runTest T1 s0 = (.ok, s4.emit (.scopeClose o.t T1.Name)) := by
    simp only [OrganizerModern.runTest, hF1, tRun, OrganizerModern.scope, hsetup1, hbody1]
    cases r1 with
    | ok => exact absurd rfl hfail
    | abort =>
      rw [hclean1]
      cases rc <;> simp_all
    | panic =>
      rw [hclean1]
      cases rc <;> simp_all
  have hrun : o.Run s = match o.runTest T2 sm with
      | (.ok, s2) => o.runLoop after s2
      | (r, s2) => (r, s2) := by
    simp only [OrganizerModern.Run, honly, htests]
    rw [OrganizerModern.runLoop_split, hreach]
    simp only [OrganizerModern.runLoop, hT1]
    rw [OrganizerModern.runLoop_split, hmid]
    simp only [OrganizerModern.runLoop]
  refine ⟨hrun, ?_⟩
  intro hs hc hb
  have h2 := o.runTest_ok T2 sm hs hc (fun f hf => by
    rw [hF2] at hf
    cases hf
    exact hb)
  rw [hrun]
  rcases hr2 : o.runTest T2 sm with ⟨r2, s2⟩
  rw [hr2] at h2
  simp only at h2
  obtain ⟨h2a, h2b⟩ := h2
  subst h2a
  obtain ⟨rest, hrest⟩ := o.runLoop_trace_ext after s2
  exact ⟨rest, by simp only [hrest, h2b]⟩

theorem failure_isolation_witness :
    (exIsolation.Run (St.init World.blank)
        = match exIsolation.runTest ⟨"t2", some (bodyOf (hookExpect 0 "Foo"))⟩
            (exIsolationS4.emit (.scopeClose exIsolation.t "t1")) with
          | (.ok, s2) => exIsolation.runLoop [] s2
          | (r, s2) => (r, s2))
      ∧ ∃ rest, (exIsolation.Run (St.init World.blank)).2.trace
          = (exIsolationS4.emit (.scopeClose exIsolation.t "t1")).trace
            ++ exIsolation.specTest ⟨"t2", some (bodyOf (hookExpect 0 "Foo"))⟩ ++ rest :=
  have h := failure_isolation exIsolation [] [] [] ⟨"t1", some (bodyOf hookAbort)⟩
    ⟨"t2", some (bodyOf (hookExpect 0 "Foo"))⟩ (bodyOf hookAbort)
    (bodyOf (hookExpect 0 "Foo")) (St.init World.blank) (St.init World.blank) exIsolationSb
    exIsolationS4 (exIsolationS4.emit (.scopeClose exIsolation.t "t1")) .abort .ok
    exIsolationSb.world rfl rfl rfl rfl rfl rfl rfl (by decide) rfl (by decide) rfl
  ⟨h.1, h.2 hookIncr_ok hookIncr_ok (fun _ _ => rfl)⟩

/-- The run of `exIsolation`, step by step: `t1` fails, `t2` runs in full. -/
theorem exIsolation_trace : (exIsolation.Run (St.init World.blank)).2.trace
    = [.scopeOpen (.root "suite") "t1", .reset 0, .setup 0,
       .body "t1" (some (.sub (.root "suite") "t1")), .cleanup 0,
       .scopeClose (.root "suite") "t1",
       .scopeOpen (.root "suite") "t2", .reset 0, .setup 0,
       .body "t2" (some (.sub (.root "suite") "t2")), .verify 0 (.root "suite"), .cleanup 0,
       .scopeClose (.root "suite") "t2"] := by
  decide

/-- C8, as stated, fails: the first setup hook of `exSetupAborts` leaves through
`FailNow`; the second setup hook, the body and the verification are skipped, and
so is the cleanup hook, which is never called. -/
theorem setup_failure_counterexample :
    exSetupAborts.cleanup.length = 1
      ∧ (hookAbort World.blank).1 = .abort
      ∧ (exSetupAborts.Run (St.init World.blank)).2.trace
          = [.scopeOpen (.root "suite") "t", .reset 0, .setup 0,
             .scopeClose (.root "suite") "t"]
      ∧ Event.cleanup 0 ∉ (exSetupAborts.Run (St.init World.blank)).2.trace := by
  decide

/-- C8, amended. Enhanced variant: when a setup hook of an executed test does
not return normally, the steps of that test are its sub-scope, the reset of
every mock and the setup hooks up to the failing one, and nothing more: no later
setup hook, no body, no verification, and no cleanup hook either, the cleanup
being deferred only once the setup loop is over. -/
theorem setup_failure_skips_rest (o : OrganizerModern) (test : testModern) (f : HookT)
    (s s2 : St) (r : Outcome) (hF : test.Func = some f)
    (hsetup : runHooks Event.setup o.setup 0
      (resetMocks o.mocks (s.emit (.scopeOpen o.t test.Name))) = (r, s2))
    (hr : r ≠ .ok) :
    ∃ k, k < o.setup.length
      ∧ (o.runTest test s).2.trace
          = s.trace ++ [.scopeOpen o.t test.Name] ++ o.mocks.map Event.reset
            ++ (List.range (k + 1)).map Event.setup
            ++ (if r = .panic then [] else [.scopeClose o.t test.Name])
      ∧ (o.runTest test s).2.asserted = s.asserted
      ∧ (o.runTest test s).2.world = s2.world := by
  obtain ⟨k, hk, htr⟩ := runHooks_trace_of_fail Event.setup o.setup 0
    (resetMocks o.mocks (s.emit (.scopeOpen o.t test.Name))) (by rw [hsetup]; exact hr)
  have ha := runHooks_asserted Event.setup o.setup 0
    (resetMocks o.mocks (s.emit (.scopeOpen o.t test.Name)))
  rw [hsetup] at htr ha
  simp only [resetMocks_trace, resetMocks_asserted, emit_trace, emit_asserted] at htr ha
  refine ⟨k, hk, ?_⟩
  cases r with
  | ok => exact absurd rfl hr
  | abort =>
    simp only [OrganizerModern.runTest, hF, tRun, OrganizerModern.scope, hsetup]
    simp [St.emit, htr, ha]
  | panic =>
    simp only [OrganizerModern.runTest, hF, tRun, OrganizerModern.scope, hsetup]
    simp [St.emit, htr, ha]

theorem setup_failure_skips_rest_witness :
    ∃ k, k < exSetupAborts.setup.length
      ∧ (exSetupAborts.runTest ⟨"t", some (bodyOf hookIncr)⟩ (St.init World.blank)).2.trace
          = (St.init World.blank).trace ++ [.scopeOpen exSetupAborts.t "t"]
            ++ exSetupAborts.mocks.map Event.reset
            ++ (List.range (k + 1)).map Event.setup
            ++ (if Outcome.abort = .panic then [] else [.scopeClose exSetupAborts.t "t"])
      ∧ (exSetupAborts.runTest ⟨"t", some (bodyOf hookIncr)⟩ (St.init World.blank)).2.asserted
          = (St.init World.blank).asserted
      ∧ (exSetupAborts.runTest ⟨"t", some (bodyOf hookIncr)⟩ (St.init World.blank)).2.world
          = (runHooks Event.setup exSetupAborts.setup 0
              (resetMocks exSetupAborts.mocks
                ((St.init World.blank).emit (.scopeOpen exSetupAborts.t "t")))).2.world :=
  setup_failure_skips_rest exSetupAborts ⟨"t", some (bodyOf hookIncr)⟩ (bodyOf hookIncr)
    (St.init World.blank) _ .abort rfl rfl (by decide)

/-- C9, as stated, fails in both variants: the body of the one test of
`exSimpleAborts` and of `exBodyAborts` leaves through `FailNow`, and the
registered mock, reset before the body, is never verified. -/
theorem verification_counterexample :
    ((exSimpleAborts.Run (St.init World.blank)).2.trace
        = [.running "t", .reset 0, .body "t" none]
      ∧ (exSimpleAborts.Run (St.init World.blank)).2.asserted = [])
    ∧ ((exBodyAborts.Run (St.init World.blank)).2.trace
        = [.scopeOpen (.root "suite") "t", .reset 0, .setup 0,
           .body "t" (some (.sub (.root "suite") "t")), .cleanup 0, .cleanup 1,
           .scopeClose (.root "suite") "t"]
      ∧ (exBodyAborts.Run (St.init World.blank)).2.asserted = []) := by
  decide

/-- C9, amended. Both variants, for an executed test whose body is reached (the
resets and the setup hooks returned normally): every registered mock is reset
before the body, in registration order, and every registered mock is verified
after the body, in registration order, when the body returns normally; when the
body does not return normally no mock is verified for that test. -/
theorem verification_follows_normal_body (o : Organizer) (om : OrganizerModern) (test : Test)
    (testm : testModern) (f : Hook) (g : HookT) (s s2 s2m : St) (r rm : Outcome) (w wm : World)
    (hF : test.Func = some f) (hG : testm.Func = some g)
    (hsetup : runHooks Event.setup o.setup 0
      (resetMocks o.mocks (s.emit (.running test.Name))) = (.ok, s2))
    (hbody : f s2.world = (r, w))
    (hsetupm : runHooks Event.setup om.setup 0
      (resetMocks om.mocks (s.emit (.scopeOpen om.t testm.Name))) = (.ok, s2m))
    (hbodym : g (.sub om.t testm.Name) s2m.world = (rm, wm)) :
    ((o.runOne test s).2.trace
        = s.trace ++ [.running test.Name] ++ o.mocks.map Event.reset
          ++ (List.range o.setup.length).map Event.setup ++ [.body test.Name none]
          ++ (if r = .ok then o.mocks.map (fun m => Event.verify m o.t) else [])
      ∧ (o.runOne test s).2.asserted
        = s.asserted ++ (if r = .ok then o.mocks.map (fun m => (m, w.heap m)) else []))
    ∧ ((∃ cs, (om.runTest testm s).2.trace
          = s.trace ++ [.scopeOpen om.t testm.Name] ++ om.mocks.map Event.reset
            ++ (List.range om.setup.length).map Event.setup
            ++ [.body testm.Name (some (.sub om.t testm.Name))]
            ++ (if rm = .ok then om.mocks.map (fun m => Event.verify m om.t) else []) ++ cs
          ∧ ∀ e ∈ cs, (∃ k, e = .cleanup k) ∨ e = .scopeClose om.t testm.Name)
      ∧ (om.runTest testm s).2.asserted
        = s.asserted ++ (if rm = .ok then om.mocks.map (fun m => (m, wm.heap m)) else [])) := by
  have ht := runHooks_trace_of_ok Event.setup o.setup 0 _ (by rw [hsetup])
  have ha := runHooks_asserted Event.setup o.setup 0
    (resetMocks o.mocks (s.emit (.running test.Name)))
  rw [hsetup] at ht ha
  simp only [resetMocks_trace, resetMocks_asserted, emit_trace, emit_asserted] at ht ha
  have htm := runHooks_trace_of_ok Event.setup om.setup 0 _ (by rw [hsetupm])
  have ham := runHooks_asserted Event.setup om.setup 0
    (resetMocks om.mocks (s.emit (.scopeOpen om.t testm.Name)))
  rw [hsetupm] at htm ham
  simp only [resetMocks_trace, resetMocks_asserted, emit_trace, emit_asserted] at htm ham
  refine ⟨?_, ?_⟩
  · simp only [Organizer.runOne, hF, hsetup, hbody]
    cases r <;> simp [verifyMocks_trace, verifyMocks_asserted, St.emit, ht, ha]
  · have hclose : ∀ (rr : Outcome) (s4 : St) (cs : List Event),
        (∀ e ∈ cs, ∃ k, e = Event.cleanup k) →
        ∀ e ∈ cs ++ (if rr = .panic then [] else [Event.scopeClose om.t testm.Name]),
          (∃ k, e = .cleanup k) ∨ e = .scopeClose om.t testm.Name := by
      intro rr s4 cs hcs e he
      rcases List.mem_append.mp he with he | he
      · exact Or.inl (hcs e he)
      · cases rr <;> simp at he <;> exact Or.inr he
    cases rm with
    | ok =>
      obtain ⟨cs, c1, c2⟩ := runHooks_trace_evs Event.cleanup om.cleanup 0
        (verifyMocks om.t om.mocks
          ({ s2m with world := wm }.emit (.body testm.Name (some (.sub om.t testm.Name)))))
      have c3 := runHooks_asserted Event.cleanup om.cleanup 0
        (verifyMocks om.t om.mocks
          ({ s2m with world := wm }.emit (.body testm.Name (some (.sub om.t testm.Name)))))
      rcases hrun : runHooks Event.cleanup om.cleanup 0
        (verifyMocks om.t om.mocks
          ({ s2m with world := wm }.emit (.body testm.Name (some (.sub om.t testm.Name)))))
        with ⟨rc, s4⟩
      rw [hrun] at c1 c3
      simp only [verifyMocks_trace, verifyMocks_asserted, emit_trace, emit_asserted] at c1 c3
      refine ⟨⟨cs ++ (if rc = .panic then [] else [Event.scopeClose om.t testm.Name]), ?_,
        hclose rc s4 cs c2⟩, ?_⟩
      · simp only [OrganizerModern.runTest, hG, tRun, OrganizerModern.scope, hsetupm, hbodym,
          OrganizerModern.runCleanup, hrun]
        cases rc <;> simp [St.emit, c1, htm]
      · simp only [OrganizerModern.runTest, hG, tRun, OrganizerModern.scope, hsetupm, hbodym,
          OrganizerModern.runCleanup, hrun]
        cases rc <;> simp [St.emit, c3, ham]
    | abort =>
      obtain ⟨cs, c1, c2⟩ := runHooks_trace_evs Event.cleanup om.cleanup 0
        ({ s2m with world := wm }.emit (.body testm.Name (some (.sub om.t testm.Name))))
      have c3 := runHooks_asserted Event.cleanup om.cleanup 0
        ({ s2m with world := wm }.emit (.body testm.Name (some (.sub om.t testm.Name))))
      rcases hrun : runHooks Event.cleanup om.cleanup 0
        ({ s2m with world := wm }.emit (.body testm.Name (some (.sub om.t testm.Name))))
        with ⟨rc, s4⟩
      rw [hrun] at c1 c3
      simp only [emit_trace, emit_asserted] at c1 c3
      refine ⟨⟨cs ++ (if rc = .panic then [] else [Event.scopeClose om.t testm.Name]), ?_,
        hclose rc s4 cs c2⟩, ?_⟩
      · simp only [OrganizerModern.runTest, hG, tRun, OrganizerModern.scope, hsetupm, hbodym,
          OrganizerModern.runCleanup, hrun]
        cases rc <;> simp [St.emit, c1, htm]
      · simp only [OrganizerModern.runTest, hG, tRun, OrganizerModern.scope, hsetupm, hbodym,
          OrganizerModern.runCleanup, hrun]
        cases rc <;> simp [St.emit, c3, ham]
    | panic =>
      obtain ⟨cs, c1, c2⟩ := runHooks_trace_evs Event.cleanup om.cleanup 0
        ({ s2m with world := wm }.emit (.body testm.Name (some (.sub om.t testm.Name))))
      have c3 := runHooks_asserted Event.cleanup om.cleanup 0
        ({ s2m with world := wm }.emit (.body testm.Name (some (.sub om.t testm.Name))))
      rcases hrun : runHooks Event.cleanup om.cleanup 0
        ({ s2m with world := wm }.emit (.body testm.Name (some (.sub om.t testm.Name))))
        with ⟨rc, s4⟩
      rw [hrun] at c1 c3
      simp only [emit_trace, emit_asserted] at c1 c3
      refine ⟨⟨cs ++ (if rc = .abort then [Event.scopeClose om.t testm.Name] else []), ?_, ?_⟩,
        ?_⟩
      · simp only [OrganizerModern.runTest, hG, tRun, OrganizerModern.scope, hsetupm, hbodym,
          OrganizerModern.runCleanup, hrun]
        cases rc <;> simp [St.emit, c1, htm]
      · intro e he
        rcases List.mem_append.mp he with he | he
        · exact Or.inl (c2 e he)
        · cases rc <;> simp at he
          exact Or.inr he
      · simp only [OrganizerModern.runTest, hG, tRun, OrganizerModern.scope, hsetupm, hbodym,
          OrganizerModern.runCleanup, hrun]
        cases rc <;> simp [St.emit, c3, ham]

theorem verification_follows_normal_body_witness :
    ((exSimpleAborts.runOne ⟨"t", some hookAbort⟩ (St.init World.blank)).2.trace
        = (St.init World.blank).trace ++ [.running "t"] ++ exSimpleAborts.mocks.map Event.reset
          ++ (List.range exSimpleAborts.setup.length).map Event.setup ++ [.body "t" none]
          ++ (if Outcome.abort = .ok then
                exSimpleAborts.mocks.map (fun m => Event.verify m exSimpleAborts.t)
              else [])
      ∧ (exSimpleAborts.runOne ⟨"t", some hookAbort⟩ (St.init World.blank)).2.asserted
        = (St.init World.blank).asserted
          ++ (if Outcome.abort = .ok then
                exSimpleAborts.mocks.map (fun m => (m, (World.blank.clear 0).heap m))
              else []))
    ∧ ((∃ cs, (exModern.runTest ⟨"b", some (bodyOf (hookExpect 0 "Foo"))⟩
            (St.init World.blank)).2.trace
          = (St.init World.blank).trace ++ [.scopeOpen exModern.t "b"]
            ++ exModern.mocks.map Event.reset
            ++ (List.range exModern.setup.length).map Event.setup
            ++ [.body "b" (some (.sub exModern.t "b"))]
            ++ (if Outcome.ok = .ok then exModern.mocks.map (fun m => Event.verify m exModern.t)
                else []) ++ cs
          ∧ ∀ e ∈ cs, (∃ k, e = .cleanup k) ∨ e = .scopeClose exModern.t "b")
      ∧ (exModern.runTest ⟨"b", some (bodyOf (hookExpect 0 "Foo"))⟩
            (St.init World.blank)).2.asserted
        = (St.init World.blank).asserted
          ++ (if Outcome.ok = .ok then
                exModern.mocks.map (fun m => (m,
                  (hookExpect 0 "Foo" (hookIncr (World.blank.clear 0)).2).2.heap m))
              else [])) :=
  verification_follows_normal_body exSimpleAborts exModern ⟨"t", some hookAbort⟩
    ⟨"b", some (bodyOf (hookExpect 0 "Foo"))⟩ hookAbort (bodyOf (hookExpect 0 "Foo"))
    (St.init World.blank) _ _ .abort .ok (World.blank.clear 0)
    (hookExpect 0 "Foo" (hookIncr (World.blank.clear 0)).2).2 rfl rfl rfl rfl rfl rfl

/-- C10. Per-mock multiplicity, both variants.  `CheckMock` appends without
looking for duplicates, so each call adds one registration of the mock.  For a
mock registered `n` times: the steps of an executed test that has a body and
whose callbacks all return normally hold `n` resets and `n` verifications of
it, from whatever state the test is reached; and a run in which every callback
called returns normally holds `n * k` of each, `k` being the number of executed
tests that have a body. -/
theorem mock_multiplicity (o : Organizer) (om : OrganizerModern) (m : MockRef) (s : St) :
    ((o.CheckMock m).mocks.count m = o.mocks.count m + 1
      ∧ (∀ test s1, test.Func.isSome = true → (o.runOne test s1).1 = .ok → ∃ evs,
          (o.runOne test s1).2.trace = s1.trace ++ evs
            ∧ evs.countP (Event.isReset m) = o.mocks.count m
            ∧ evs.countP (Event.isVerify m) = o.mocks.count m)
      ∧ ((o.Run s).1 = .ok → ∃ evs, (o.Run s).2.trace = s.trace ++ evs
          ∧ evs.countP (Event.isReset m)
              = o.mocks.count m * o.tests.countP (fun test => test.Func.isSome)
          ∧ evs.countP (Event.isVerify m)
              = o.mocks.count m * o.tests.countP (fun test => test.Func.isSome)))
    ∧ ((om.CheckMock m).mocks.count m = om.mocks.count m + 1
      ∧ (∀ test s1, test.Func.isSome = true → om.normalTest test s1 = true → ∃ evs,
          (om.runTest test s1).2.trace = s1.trace ++ evs
            ∧ evs.countP (Event.isReset m) = om.mocks.count m
            ∧ evs.countP (Event.isVerify m) = om.mocks.count m)
      ∧ (om.normalRun s = true → ∃ evs, (om.Run s).2.trace = s.trace ++ evs
          ∧ evs.countP (Event.isReset m)
              = om.mocks.count m * om.executed.countP (fun test => test.Func.isSome)
          ∧ evs.countP (Event.isVerify m)
              = om.mocks.count m * om.executed.countP (fun test => test.Func.isSome))) := by
  refine ⟨⟨by simp [Organizer.CheckMock], ?_, ?_⟩, ⟨by simp [OrganizerModern.CheckMock], ?_, ?_⟩⟩
  · intro test s1 hen hok
    refine ⟨o.specTest test, o.runOne_trace_of_ok test s1 hok, ?_, ?_⟩
    · rw [(o.specTest_count test m).1, if_pos hen]
    · rw [(o.specTest_count test m).2, if_pos hen]
  · intro hok
    refine ⟨o.tests.flatMap o.specTest, o.runLoop_trace_of_ok o.tests s hok, ?_, ?_⟩
    · exact countP_flatMap_records _ _ _ _ _ (fun x => (o.specTest_count x m).1)
    · exact countP_flatMap_records _ _ _ _ _ (fun x => (o.specTest_count x m).2)
  · intro test s1 hen hok
    refine ⟨om.specTest test, (om.runTest_of_normal test s1 hok).2, ?_, ?_⟩
    · rw [(om.specTest_counts test m).1, if_pos hen]
    · rw [(om.specTest_counts test m).2, if_pos hen]
  · intro hok
    refine ⟨om.executed.flatMap om.specTest, (om.run_of_normal s hok).2, ?_, ?_⟩
    · exact countP_flatMap_records _ _ _ _ _ (fun x => (om.specTest_counts x m).1)
    · exact countP_flatMap_records _ _ _ _ _ (fun x => (om.specTest_counts x m).2)

theorem mock_multiplicity_witness :
    (∃ evs, (exTwiceSimple.Run (St.init World.blank)).2.trace = (St.init World.blank).trace ++ evs
        ∧ evs.countP (Event.isReset 0)
            = exTwiceSimple.mocks.count 0
              * exTwiceSimple.tests.countP (fun test => test.Func.isSome)
        ∧ evs.countP (Event.isVerify 0)
            = exTwiceSimple.mocks.count 0
              * exTwiceSimple.tests.countP (fun test => test.Func.isSome))
      ∧ (∃ evs, (exTwiceModern.Run (St.init World.blank)).2.trace
            = (St.init World.blank).trace ++ evs
        ∧ evs.countP (Event.isReset 0)
            = exTwiceModern.mocks.count 0
              * exTwiceModern.executed.countP (fun test => test.Func.isSome)
        ∧ evs.countP (Event.isVerify 0)
            = exTwiceModern.mocks.count 0
              * exTwiceModern.executed.countP (fun test => test.Func.isSome)) :=
  ⟨(mock_multiplicity exTwiceSimple exTwiceModern 0 (St.init World.blank)).1.2.2 (by decide),
   (mock_multiplicity exTwiceSimple exTwiceModern 0 (St.init World.blank)).2.2.2 (by decide)⟩

/-- The counts on `exTwiceSimple` and `exTwiceModern`: the mock registered twice
is reset four times and verified four times over the two tests that have a
body, twice for the last as for the first. -/
theorem exTwice_counts :
    exTwiceSimple.mocks.count 0 = 2
      ∧ exTwiceSimple.tests.countP (fun test => test.Func.isSome) = 2
      ∧ (exTwiceSimple.Run (St.init World.blank)).2.trace.countP (Event.isReset 0) = 4
      ∧ (exTwiceSimple.Run (St.init World.blank)).2.trace.countP (Event.isVerify 0) = 4
      ∧ (exTwiceModern.Run (St.init World.blank)).2.trace.countP (Event.isReset 0) = 4
      ∧ (exTwiceModern.Run (St.init World.blank)).2.trace.countP (Event.isVerify 0) = 4
      ∧ (exTwiceSimple.Run (St.init World.blank)).2.trace
          = [.running "a", .reset 0, .reset 0, .body "a" none, .verify 0 (.root "suite"),
             .verify 0 (.root "suite"), .disabled "c", .running "b", .reset 0, .reset 0,
             .body "b" none, .verify 0 (.root "suite"), .verify 0 (.root "suite")] := by
  decide

/-- C12. `Only` is last-write-wins: `Only(n1, b1)` followed by `Only(n2, b2)`
leaves the organizer as `Only(n2, b2)` alone does, so `Run` is the per-test
routine on `{n2, b2}` and `b1` plays no part in it; and `Only` keeps the tests,
the mocks, the setup hooks, the cleanup hooks and the context as they were. -/
theorem only_last_write_wins (o : OrganizerModern) (n1 n2 : String) (b1 b2 : Option HookT)
    (s : St) :
    (o.Only n1 b1).Only n2 b2 = o.Only n2 b2
      ∧ ((o.Only n1 b1).Only n2 b2).only = some ⟨n2, b2⟩
      ∧ ((o.Only n1 b1).Only n2 b2).Run s = o.runTest ⟨n2, b2⟩ s
      ∧ (o.Only n1 b1).tests = o.tests ∧ (o.Only n1 b1).mocks = o.mocks
      ∧ (o.Only n1 b1).setup = o.setup ∧ (o.Only n1 b1).cleanup = o.cleanup
      ∧ (o.Only n1 b1).t = o.t := by
  refine ⟨rfl, rfl, ?_, rfl, rfl, rfl, rfl, rfl⟩
  have h : ((o.Only n1 b1).Only n2 b2).only = some ⟨n2, b2⟩ := rfl
  simp only [OrganizerModern.Run, h]
  exact OrganizerModern.runTest_congr _ o rfl rfl rfl rfl _ s

/-- C13. `NIt` discards its body, both variants: `NIt(name, f)` appends the one
record `{name, nil}` after the records already there, keeps every other field,
and yields the same organizer whatever function it is given. -/
theorem nit_discards_body (o : Organizer) (om : OrganizerModern) (name : String)
    (f g : Option Hook) (fm gm : Option HookT) :
    ((o.NIt name f).tests = o.tests ++ [⟨name, none⟩]
      ∧ (o.NIt name f).mocks = o.mocks ∧ (o.NIt name f).setup = o.setup
      ∧ (o.NIt name f).t = o.t ∧ o.NIt name f = o.NIt name g)
    ∧ ((om.NIt name fm).tests = om.tests ++ [⟨name, none⟩]
      ∧ (om.NIt name fm).mocks = om.mocks ∧ (om.NIt name fm).setup = om.setup
      ∧ (om.NIt name fm).cleanup = om.cleanup ∧ (om.NIt name fm).only = om.only
      ∧ (om.NIt name fm).t = om.t ∧ om.NIt name fm = om.NIt name gm) :=
  ⟨⟨rfl, rfl, rfl, rfl, rfl⟩, ⟨rfl, rfl, rfl, rfl, rfl, rfl, rfl⟩⟩

/-- C19. A test without a body is disabled however it was registered.  In both
variants `It(name, nil)` leaves the organizer as `NIt(name, f)` does for any `f`,
so `Run` behaves the same, and the step of `Run` on that record is the single
disabled report.  In the enhanced variant `Run` after `Only(name, nil)` is the
single disabled report for `name`: no body is executed and the world is as
before. -/
theorem absent_body_disables (o : Organizer) (om : OrganizerModern) (name : String)
    (f : Option Hook) (fm : Option HookT) (s : St) :
    (o.It name none = o.NIt name f
      ∧ (o.It name none).Run s = (o.NIt name f).Run s
      ∧ (o.It name none).runOne ⟨name, none⟩ s
          = (.ok, { s with trace := s.trace ++ [.disabled name] }))
    ∧ (om.It name none = om.NIt name fm
      ∧ (om.It name none).Run s = (om.NIt name fm).Run s
      ∧ (om.It name none).runTest ⟨name, none⟩ s
          = (.ok, { s with trace := s.trace ++ [.disabled name] }))
    ∧ (om.Only name none).Run s = (.ok, { s with trace := s.trace ++ [.disabled name] }) :=
  ⟨⟨rfl, rfl, rfl⟩, ⟨rfl, rfl, rfl⟩, rfl⟩

/-! ## Steps already taken do not influence a run -/

theorem resetMocks_shift (pre : List Event) (ms : List MockRef) (s : St) :
    resetMocks ms (s.shift pre) = (resetMocks ms s).shift pre := by
  induction ms generalizing s with
  | nil => rfl
  | cons m ms ih =>
    have h : ({ s.shift pre with world := (s.shift pre).world.clear m } : St).emit (.reset m)
        = (({ s with world := s.world.clear m } : St).emit (.reset m)).shift pre := by
      simp [St.shift, St.emit]
    simp only [resetMocks, h, ih]

theorem verifyMocks_shift (pre : List Event) (t : T) (ms : List MockRef) (s : St) :
    verifyMocks t ms (s.shift pre) = (verifyMocks t ms s).shift pre := by
  induction ms generalizing s with
  | nil => rfl
  | cons m ms ih =>
    have h : ({ s.shift pre with
          asserted := (s.shift pre).asserted ++ [(m, (s.shift pre).world.heap m)] } : St).emit
          (.verify m t)
        = (({ s with asserted := s.asserted ++ [(m, s.world.heap m)] } : St).emit
            (.verify m t)).shift pre := by
      simp [St.shift, St.emit]
    simp only [verifyMocks, h, ih]

theorem runHooks_shift (pre : List Event) (ev : Nat → Event) (fs : List Hook) (i : Nat)
    (s : St) :
    runHooks ev fs i (s.shift pre)
      = ((runHooks ev fs i s).1, (runHooks ev fs i s).2.shift pre) := by
  induction fs generalizing i s with
  | nil => rfl
  | cons f fs ih =>
    have hw : (s.shift pre).world = s.world := rfl
    rcases hf : f s.world with ⟨r, w⟩
    have h : ({ s.shift pre with world := w } : St).emit (ev i)
        = (({ s with world := w } : St).emit (ev i)).shift pre := by
      simp [St.shift, St.emit]
    cases r <;> simp only [runHooks, hw, hf, h, ih]

theorem Organizer.runOne_shift (o : Organizer) (pre : List Event) (test : Test) (s : St) :
    o.runOne test (s.shift pre) = ((o.runOne test s).1, (o.runOne test s).2.shift pre) := by
  cases hF : test.Func with
  | none => simp [Organizer.runOne, hF, St.shift, St.emit]
  | some f =>
    have h1 : (s.shift pre).emit (.running test.Name) = (s.emit (.running test.Name)).shift pre := by
      simp [St.shift, St.emit]
    simp only [Organizer.runOne, hF, h1, resetMocks_shift, runHooks_shift]
    rcases hrun : runHooks Event.setup o.setup 0
      (resetMocks o.mocks (s.emit (.running test.Name))) with ⟨r, s2⟩
    cases r
    · have hw : (s2.shift pre).world = s2.world := rfl
      simp only [hw]
      rcases hf : f s2.world with ⟨rb, w⟩
      have h2 : ({ s2.shift pre with world := w } : St).emit (.body test.Name none)
          = (({ s2 with world := w } : St).emit (.body test.Name none)).shift pre := by
        simp [St.shift, St.emit]
      cases rb <;> simp only [h2, verifyMocks_shift]
    · rfl
    · rfl

theorem Organizer.runLoop_shift (o : Organizer) (pre : List Event) (ts : List Test) (s : St) :
    o.runLoop ts (s.shift pre) = ((o.runLoop ts s).1, (o.runLoop ts s).2.shift pre) := by
  induction ts generalizing s with
  | nil => rfl
  | cons x xs ih =>
    simp only [Organizer.runLoop, Organizer.runOne_shift]
    rcases hrun : o.runOne x s with ⟨r, s1⟩
    cases r
    · simp only [ih]
    · rfl
    · rfl

/-- The run of the simple variant after one more step `e` has been recorded:
the same outcome, world and verifications, and the same steps after `e`. -/
theorem Organizer.runLoop_after_emit (o : Organizer) (ts : List Test) (s : St) (e : Event) :
    (o.runLoop ts (s.emit e)).1 = (o.runLoop ts s).1
      ∧ (o.runLoop ts (s.emit e)).2.world = (o.runLoop ts s).2.world
      ∧ (o.runLoop ts (s.emit e)).2.asserted = (o.runLoop ts s).2.asserted
      ∧ ∃ evs, (o.runLoop ts s).2.trace = s.trace ++ evs
          ∧ (o.runLoop ts (s.emit e)).2.trace = s.trace ++ e :: evs := by
  have h0 : s = ({ s with trace := [] } : St).shift s.trace := by
    simp [St.shift]
  have h1 : s.emit e = ({ s with trace := [] } : St).shift (s.trace ++ [e]) := by
    simp [St.shift, St.emit]
  have e0 := o.runLoop_shift s.trace ts { s with trace := [] }
  have e1 := o.runLoop_shift (s.trace ++ [e]) ts { s with trace := [] }
  rw [← h0] at e0
  rw [← h1] at e1
  rw [e0, e1]
  exact ⟨rfl, rfl, rfl, (o.runLoop ts { s with trace := [] }).2.trace, rfl, by simp [St.shift]⟩

/-! ## The kinds of step of the enhanced variant -/

/-- The steps inside one sub-scope are resets, setup hooks, cleanup hooks, the
body called with the context of the sub-scope, and verifications of registered
mocks against the context of the organizer. -/
theorem OrganizerModern.scope_steps (o : OrganizerModern) (name : String) (f : HookT) (t : T)
    (s : St) :
    ∃ evs, (o.scope name f t s).2.trace = s.trace ++ evs
      ∧ ∀ e ∈ evs, (∃ m, e = .reset m) ∨ (∃ k, e = .setup k) ∨ (∃ k, e = .cleanup k)
          ∨ e = .body name (some t) ∨ (∃ m, m ∈ o.mocks ∧ e = .verify m o.t) := by
  obtain ⟨evs, h1, h2⟩ := runHooks_trace_evs Event.setup o.setup 0 (resetMocks o.mocks s)
  have hpre : ∀ e ∈ o.mocks.map Event.reset ++ evs,
      (∃ m, e = .reset m) ∨ (∃ k, e = .setup k) ∨ (∃ k, e = .cleanup k)
        ∨ e = .body name (some t) ∨ (∃ m, m ∈ o.mocks ∧ e = .verify m o.t) := by
    intro e he
    rcases List.mem_append.mp he with he | he
    · obtain ⟨m, _, rfl⟩ := List.mem_map.mp he
      exact Or.inl ⟨m, rfl⟩
    · exact Or.inr (Or.inl (h2 e he))
  rcases hrun : runHooks Event.setup o.setup 0 (resetMocks o.mocks s) with ⟨r, s2⟩
  rw [hrun] at h1
  simp only [resetMocks_trace] at h1
  have hbody : ∀ (sb : St) (mid : List Event),
      sb.trace = s2.trace ++ .body name (some t) :: mid →
      (∀ e ∈ mid, ∃ m, m ∈ o.mocks ∧ e = Event.verify m o.t) →
      ∃ evs2, (o.runCleanup sb).2.trace = s.trace ++ evs2
        ∧ ∀ e ∈ evs2, (∃ m, e = .reset m) ∨ (∃ k, e = .setup k) ∨ (∃ k, e = .cleanup k)
            ∨ e = .body name (some t) ∨ (∃ m, m ∈ o.mocks ∧ e = .verify m o.t) := by
    intro sb mid hsb hmid
    obtain ⟨cs, c1, c2⟩ := runHooks_trace_evs Event.cleanup o.cleanup 0 sb
    refine ⟨o.mocks.map Event.reset ++ evs ++ (.body name (some t) :: mid) ++ cs, ?_, ?_⟩
    · simp only [OrganizerModern.runCleanup, c1, hsb, h1]
      simp
    · intro e he
      rcases List.mem_append.mp he with he | he
      · rcases List.mem_append.mp he with he | he
        · exact hpre e he
        · rcases List.mem_cons.mp he with rfl | he
          · exact Or.inr (Or.inr (Or.inr (Or.inl rfl)))
          · exact Or.inr (Or.inr (Or.inr (Or.inr (hmid e he))))
      · exact Or.inr (Or.inr (Or.inl (c2 e he)))
  cases r with
  | abort => exact ⟨_, by simp only [OrganizerModern.scope, hrun, h1, List.append_assoc], hpre⟩
  | panic => exact ⟨_, by simp only [OrganizerModern.scope, hrun, h1, List.append_assoc], hpre⟩
  | ok =>
    rcases hf : f t s2.world with ⟨rb, w⟩
    cases rb with
    | ok =>
      obtain ⟨evs2, g1, g2⟩ := hbody
        (verifyMocks o.t o.mocks ({ s2 with world := w }.emit (.body name (some t))))
        (o.mocks.map (fun m => Event.verify m o.t))
        (by simp [verifyMocks_trace, St.emit])
        (fun e he => by
          obtain ⟨m, hm, rfl⟩ := List.mem_map.mp he
          exact ⟨m, hm, rfl⟩)
      exact ⟨evs2, by simp only [OrganizerModern.scope, hrun, hf, g1], g2⟩
    | abort =>
      obtain ⟨evs2, g1, g2⟩ := hbody ({ s2 with world := w }.emit (.body name (some t))) []
        (by simp [St.emit]) (by simp)
      refine ⟨evs2, ?_, g2⟩
      simp only [OrganizerModern.scope, hrun, hf]
      generalize o.runCleanup ({ s2 with world := w }.emit (.body name (some t))) = res at g1 ⊢
      rcases res with ⟨rc, s4⟩
      cases rc <;> exact g1
    | panic =>
      obtain ⟨evs2, g1, g2⟩ := hbody ({ s2 with world := w }.emit (.body name (some t))) []
        (by simp [St.emit]) (by simp)
      refine ⟨evs2, ?_, g2⟩
      simp only [OrganizerModern.scope, hrun, hf]
      generalize o.runCleanup ({ s2 with world := w }.emit (.body name (some t))) = res at g1 ⊢
      rcases res with ⟨rc, s4⟩
      cases rc <;> exact g1

/-- Every step of the per-test routine on a record is a step of that record. -/
theorem OrganizerModern.runTest_steps (o : OrganizerModern) (test : testModern) (s : St) :
    ∃ evs, (o.runTest test s).2.trace = s.trace ++ evs ∧ ∀ e ∈ evs, o.stepOf test e := by
  cases hF : test.Func with
  | none =>
    refine ⟨[.disabled test.Name], by simp [OrganizerModern.runTest, hF, St.emit], ?_⟩
    intro e he
    simp at he
    subst he
    exact Or.inl rfl
  | some f =>
    obtain ⟨evs, h1, h2⟩ := o.scope_steps test.Name f (.sub o.t test.Name)
      (s.emit (.scopeOpen o.t test.Name))
    have hin : ∀ e ∈ evs, o.stepOf test e := by
      intro e he
      rcases h2 e he with h | h | h | h | h
      · exact Or.inr (Or.inr (Or.inr (Or.inl h)))
      · exact Or.inr (Or.inr (Or.inr (Or.inr (Or.inl h))))
      · exact Or.inr (Or.inr (Or.inr (Or.inr (Or.inr (Or.inl h)))))
      · exact Or.inr (Or.inr (Or.inr (Or.inr (Or.inr (Or.inr (Or.inl h))))))
      · exact Or.inr (Or.inr (Or.inr (Or.inr (Or.inr (Or.inr (Or.inr h))))))
    rcases hsc : o.scope test.Name f (.sub o.t test.Name) (s.emit (.scopeOpen o.t test.Name))
      with ⟨r, s1⟩
    rw [hsc] at h1
    simp only [emit_trace] at h1
    have hopen : ∀ e ∈ Event.scopeOpen o.t test.Name :: evs, o.stepOf test e := by
      intro e he
      rcases List.mem_cons.mp he with rfl | he
      · exact Or.inr (Or.inl rfl)
      · exact hin e he
    have hclosed : ∀ e ∈ Event.scopeOpen o.t test.Name :: evs ++ [.scopeClose o.t test.Name],
        o.stepOf test e := by
      intro e he
      rcases List.mem_append.mp he with he | he
      · exact hopen e he
      · simp at he
        subst he
        exact Or.inr (Or.inr (Or.inl rfl))
    cases r with
    | panic =>
      exact ⟨_, by simp only [OrganizerModern.runTest, hF, tRun, hsc, h1]; simp, hopen⟩
    | ok =>
      exact ⟨_, by simp only [OrganizerModern.runTest, hF, tRun, hsc, emit_trace, h1]; simp,
        hclosed⟩
    | abort =>
      exact ⟨_, by simp only [OrganizerModern.runTest, hF, tRun, hsc, emit_trace, h1]; simp,
        hclosed⟩

/-- Every step of the loop over `ts` is a step of one of the records of `ts`. -/
theorem OrganizerModern.runLoop_steps (o : OrganizerModern) (ts : List testModern) (s : St) :
    ∃ evs, (o.runLoop ts s).2.trace = s.trace ++ evs
      ∧ ∀ e ∈ evs, ∃ test ∈ ts, o.stepOf test e := by
  induction ts generalizing s with
  | nil => exact ⟨[], by simp [OrganizerModern.runLoop]⟩
  | cons x xs ih =>
    obtain ⟨e1, h1, p1⟩ := o.runTest_steps x s
    have q1 : ∀ e ∈ e1, ∃ test ∈ x :: xs, o.stepOf test e :=
      fun e he => ⟨x, List.mem_cons_self _ _, p1 e he⟩
    rcases hrun : o.runTest x s with ⟨r, s1⟩
    rw [hrun] at h1
    simp only at h1
    cases r with
    | ok =>
      obtain ⟨e2, h2, p2⟩ := ih s1
      refine ⟨e1 ++ e2, by simp [OrganizerModern.runLoop, hrun, h2, h1], ?_⟩
      intro e he
      rcases List.mem_append.mp he with he | he
      · exact q1 e he
      · obtain ⟨test, ht, hs⟩ := p2 e he
        exact ⟨test, List.mem_cons_of_mem _ ht, hs⟩
    | abort => exact ⟨e1, by simp [OrganizerModern.runLoop, hrun, h1], q1⟩
    | panic => exact ⟨e1, by simp [OrganizerModern.runLoop, hrun, h1], q1⟩

/-- Every step of `Run` is a step of one of the records `Run` processes. -/
theorem OrganizerModern.run_steps (o : OrganizerModern) (s : St) :
    ∃ evs, (o.Run s).2.trace = s.trace ++ evs
      ∧ ∀ e ∈ evs, ∃ test ∈ o.executed, o.stepOf test e := by
  cases honly : o.only with
  | none =>
    simpa [OrganizerModern.Run, OrganizerModern.executed, honly] using o.runLoop_steps o.tests s
  | some test =>
    obtain ⟨evs, h1, h2⟩ := o.runTest_steps test s
    exact ⟨evs, by simpa [OrganizerModern.Run, honly] using h1,
      fun e he => ⟨test, by simp [OrganizerModern.executed, honly], h2 e he⟩⟩

theorem stepOf_not_meow (o : OrganizerModern) (test : testModern) (e : Event)
    (h : o.stepOf test e) : e.isMeow = false := by
  rcases h with h | h | h | h | h | h | h | h
  · subst h; rfl
  · subst h; rfl
  · subst h; rfl
  · obtain ⟨m, rfl⟩ := h; rfl
  · obtain ⟨m, rfl⟩ := h; rfl
  · obtain ⟨m, rfl⟩ := h; rfl
  · subst h; rfl
  · obtain ⟨m, _, rfl⟩ := h; rfl

/-- A sub-test context is never the context of its parent. -/
theorem T.sub_ne_self (t : T) (name : String) : T.sub t name ≠ t := by
  intro h
  have hs := congrArg sizeOf h
  simp at hs
  omega

/-- Hooks and bodies that all return normally: `Run` of the enhanced variant
returns normally, and its steps are the listed steps of the records it
processes. -/
theorem OrganizerModern.run_all_ok (o : OrganizerModern) (s : St)
    (hsetup : ∀ g ∈ o.setup, ∀ w, (g w).1 = .ok)
    (hcleanup : ∀ g ∈ o.cleanup, ∀ w, (g w).1 = .ok)
    (hbody : ∀ test ∈ o.executed, ∀ f, test.Func = some f → ∀ t w, (f t w).1 = .ok) :
    (o.Run s).1 = .ok ∧ (o.Run s).2.trace = s.trace ++ o.executed.flatMap o.specTest := by
  cases honly : o.only with
  | none =>
    have hex : o.executed = o.tests := by simp [OrganizerModern.executed, honly]
    rw [hex] at hbody ⊢
    simpa [OrganizerModern.Run, honly] using o.runLoop_all_ok o.tests s hsetup hcleanup hbody
  | some test =>
    have hex : o.executed = [test] := by simp [OrganizerModern.executed, honly]
    rw [hex] at hbody ⊢
    simpa [OrganizerModern.Run, honly] using
      o.runTest_ok test s hsetup hcleanup (hbody test (by simp))

/-- C11, as stated, fails: in the run of `exModern` the verification of the mock
comes before the cleanup hook, not after it. -/
theorem cleanup_order_counterexample :
    (exModern.Run (St.init World.blank)).2.trace
        = [.disabled "a", .scopeOpen (.root "suite") "b", .reset 0, .setup 0,
           .body "b" (some (.sub (.root "suite") "b")), .verify 0 (.root "suite"), .cleanup 0,
           .scopeClose (.root "suite") "b"]
      ∧ (exModern.Run (St.init World.blank)).2.trace.indexOf (.verify 0 (.root "suite")) = 5
      ∧ (exModern.Run (St.init World.blank)).2.trace.indexOf (.cleanup 0) = 6 := by
  decide

/-- C11, amended. Enhanced variant: for an enabled test whose resets, setup
hooks, body and cleanup hooks return normally the per-test routine takes its
steps in the order reset the mocks, run the setup hooks, run the body, verify
the mocks, run the cleanup hooks: the cleanup is deferred, so every verification
of the test comes before its first cleanup hook. -/
theorem cleanup_after_verification (o : OrganizerModern) (test : testModern) (f : HookT)
    (s s2 : St) (w : World) (hF : test.Func = some f)
    (hsetup : runHooks Event.setup o.setup 0
      (resetMocks o.mocks (s.emit (.scopeOpen o.t test.Name))) = (.ok, s2))
    (hbody : f (.sub o.t test.Name) s2.world = (.ok, w))
    (hcleanup : (o.runCleanup (verifyMocks o.t o.mocks
      ({ s2 with world := w }.emit (.body test.Name (some (.sub o.t test.Name)))))).1 = .ok) :
    (o.runTest test s).2.trace
      = s.trace ++ [.scopeOpen o.t test.Name] ++ o.mocks.map Event.reset
          ++ (List.range o.setup.length).map Event.setup
          ++ [.body test.Name (some (.sub o.t test.Name))]
          ++ o.mocks.map (fun m => Event.verify m o.t)
          ++ (List.range o.cleanup.length).map Event.cleanup
          ++ [.scopeClose o.t test.Name] := by
  have hsc : (o.scope test.Name f (.sub o.t test.Name) (s.emit (.scopeOpen o.t test.Name))).1
      = .ok := (o.scope_ok_iff _ _ _ _).mpr ⟨s2, w, hsetup, hbody, hcleanup⟩
  have hn : o.normalTest test s = true := by
    simp only [OrganizerModern.normalTest, hF, decide_eq_true_eq]
    exact hsc
  rw [(o.runTest_of_normal test s hn).2]
  simp [OrganizerModern.specTest, hF]

theorem cleanup_after_verification_witness :
    (exGuardedModern.runTest ⟨"g", some (bodyOf hookGuarded)⟩ (St.init World.blank)).2.trace
      = (St.init World.blank).trace ++ [.scopeOpen exGuardedModern.t "g"]
          ++ exGuardedModern.mocks.map Event.reset
          ++ (List.range exGuardedModern.setup.length).map Event.setup
          ++ [.body "g" (some (.sub exGuardedModern.t "g"))]
          ++ exGuardedModern.mocks.map (fun m => Event.verify m exGuardedModern.t)
          ++ (List.range exGuardedModern.cleanup.length).map Event.cleanup
          ++ [.scopeClose exGuardedModern.t "g"] :=
  cleanup_after_verification exGuardedModern ⟨"g", some (bodyOf hookGuarded)⟩
    (bodyOf hookGuarded) (St.init World.blank)
    (runHooks Event.setup exGuardedModern.setup 0
      (resetMocks exGuardedModern.mocks
        ((St.init World.blank).emit (.scopeOpen exGuardedModern.t "g")))).2
    (hookIncr (World.blank.clear 0)).2 rfl rfl rfl (by decide)

/-- C14, as stated, fails, the two variants being the other way round: `Meow`
of the simple organizer `exSimple` logs the summary line with the count of its
two tests before the steps of `Run`, and `Meow` of the enhanced organizer
`exModern` logs no summary line at all. -/
theorem meow_summary_counterexample :
    (exSimple.Meow (St.init World.blank)).2.trace
        = .meow 2 :: (exSimple.Run (St.init World.blank)).2.trace
      ∧ (exModern.Meow (St.init World.blank)).2.trace
        = (exModern.Run (St.init World.blank)).2.trace
      ∧ (exModern.Meow (St.init World.blank)).2.trace.countP Event.isMeow = 0 := by
  decide

/-- C14, amended. `Meow` of the simple variant first logs one summary line that
carries the number of registered tests and then performs `Run`; `Meow` of the
enhanced variant is `Run` and nothing else: its steps are those of `Run`, with
no summary line among them. -/
theorem meow_summary (o : Organizer) (om : OrganizerModern) (s : St) :
    (o.Meow s = o.Run (s.emit (.meow o.tests.length))
      ∧ ∃ evs, (o.Run s).2.trace = s.trace ++ evs
          ∧ (o.Meow s).2.trace = s.trace ++ .meow o.tests.length :: evs)
    ∧ (om.Meow s = om.Run s
      ∧ ∃ evs, (om.Meow s).2.trace = s.trace ++ evs ∧ evs.countP Event.isMeow = 0) := by
  refine ⟨⟨rfl, (o.runLoop_after_emit o.tests s (.meow o.tests.length)).2.2.2⟩, rfl, ?_⟩
  obtain ⟨evs, h1, h2⟩ := om.run_steps s
  refine ⟨evs, h1, countP_zero_of_forall _ _ (fun e he => ?_)⟩
  obtain ⟨test, _, hs⟩ := h2 e he
  exact stepOf_not_meow om test e hs

/-- C15. `Meow` adds no coordination, both variants: `Meow` ends as `Run` does,
in the same world and with the same verifications made, and the coordination
steps of `Meow` (everything but the summary line) are those of `Run`, in the
same order; in the enhanced variant `Meow` is `Run`. -/
theorem meow_same_coordination (o : Organizer) (om : OrganizerModern) (s : St) :
    ((o.Meow s).1 = (o.Run s).1 ∧ (o.Meow s).2.world = (o.Run s).2.world
      ∧ (o.Meow s).2.asserted = (o.Run s).2.asserted
      ∧ (o.Meow s).2.trace.filter Event.isCoordination
          = (o.Run s).2.trace.filter Event.isCoordination)
    ∧ om.Meow s = om.Run s := by
  obtain ⟨h1, h2, h3, evs, h4, h5⟩ := o.runLoop_after_emit o.tests s (.meow o.tests.length)
  refine ⟨⟨h1, h2, h3, ?_⟩, rfl⟩
  show (o.runLoop o.tests (s.emit (.meow o.tests.length))).2.trace.filter Event.isCoordination
    = (o.runLoop o.tests s).2.trace.filter Event.isCoordination
  rw [h4, h5]
  simp [List.filter_cons, Event.isCoordination, Event.isMeow]

/-- Two runs of `exSimple` in a row: the same steps twice. -/
theorem exSimple_twice : (exSimple.Run (exSimple.Run (St.init World.blank)).2).2.trace
    = [.disabled "a", .running "b", .reset 0, .setup 0, .body "b" none,
       .verify 0 (.root "suite"),
       .disabled "a", .running "b", .reset 0, .setup 0, .body "b" none,
       .verify 0 (.root "suite")] := by
  decide

/-- C17. Asymmetric verification context, enhanced variant: in the steps of the
per-test routine on a test, every body call is the call of the body of that test
with the context of its own sub-scope, and every verification is made against
the context of the organizer, which is not the context of the sub-scope; when
the hooks and the body return normally these steps are there, the body call and
one verification per registered mock. -/
theorem verification_context (o : OrganizerModern) (test : testModern) (s : St) :
    ∃ evs, (o.runTest test s).2.trace = s.trace ++ evs
      ∧ (∀ n a, Event.body n a ∈ evs → n = test.Name ∧ a = some (.sub o.t test.Name))
      ∧ (∀ m t, Event.verify m t ∈ evs → t = o.t ∧ t ≠ .sub o.t test.Name)
      ∧ (∀ f, test.Func = some f → (∀ g ∈ o.setup, ∀ w, (g w).1 = .ok) →
          (∀ g ∈ o.cleanup, ∀ w, (g w).1 = .ok) → (∀ t w, (f t w).1 = .ok) →
          Event.body test.Name (some (.sub o.t test.Name)) ∈ evs
            ∧ ∀ m ∈ o.mocks, Event.verify m o.t ∈ evs) := by
  obtain ⟨evs, h1, h2⟩ := o.runTest_steps test s
  refine ⟨evs, h1, ?_, ?_, ?_⟩
  · intro n a hmem
    rcases h2 _ hmem with h | h | h | h | h | h | h | h
    · cases h
    · cases h
    · cases h
    · obtain ⟨m, h⟩ := h
      cases h
    · obtain ⟨m, h⟩ := h
      cases h
    · obtain ⟨m, h⟩ := h
      cases h
    · cases h
      exact ⟨rfl, rfl⟩
    · obtain ⟨m, _, h⟩ := h
      cases h
  · intro m t hmem
    rcases h2 _ hmem with h | h | h | h | h | h | h | h
    · cases h
    · cases h
    · cases h
    · obtain ⟨m, h⟩ := h
      cases h
    · obtain ⟨m, h⟩ := h
      cases h
    · obtain ⟨m, h⟩ := h
      cases h
    · cases h
    · obtain ⟨m, _, h⟩ := h
      cases h
      exact ⟨rfl, fun hne => T.sub_ne_self o.t test.Name hne.symm⟩
  · intro f hF hs hc hb
    have h3 := (o.runTest_ok test s hs hc (fun g hg => by
      rw [hF] at hg
      cases hg
      exact hb)).2
    rw [h1] at h3
    have h4 : evs = o.specTest test := List.append_cancel_left h3
    subst h4
    simp [OrganizerModern.specTest, hF]

theorem verification_context_witness :
    ∃ evs, (exModern.runTest ⟨"b", some (bodyOf (hookExpect 0 "Foo"))⟩
          (St.init World.blank)).2.trace = (St.init World.blank).trace ++ evs
      ∧ Event.body "b" (some (.sub exModern.t "b")) ∈ evs
      ∧ ∀ m ∈ exModern.mocks, Event.verify m exModern.t ∈ evs :=
  match verification_context exModern ⟨"b", some (bodyOf (hookExpect 0 "Foo"))⟩
      (St.init World.blank) with
  | ⟨evs, h1, _, _, h4⟩ =>
    ⟨evs, h1, h4 (bodyOf (hookExpect 0 "Foo")) rfl hookIncr_ok hookIncr_ok (fun _ _ => rfl)⟩

/-- C18. The simple variant has no failure isolation.  Let the run reach the
enabled test `T1`, and let a setup hook of `T1` or its body not return
normally.  Then `Run` ends there, with that outcome: no mock is verified for
`T1`, and after the running report and the resets of `T1` the only steps are
setup hooks and at most the body of `T1`, so the records after `T1` get no
report, reset, setup hook, body or verification; the result does not depend on
them. -/
theorem no_isolation_simple (o : Organizer) (before later : List Test) (T1 : Test) (f : Hook)
    (s s0 : St) (htests : o.tests = before ++ T1 :: later) (hF : T1.Func = some f)
    (hreach : o.runLoop before s = (.ok, s0))
    (hfail : (runHooks Event.setup o.setup 0
          (resetMocks o.mocks (s0.emit (.running T1.Name)))).1 ≠ .ok
      ∨ ∃ s2, runHooks Event.setup o.setup 0
          (resetMocks o.mocks (s0.emit (.running T1.Name))) = (.ok, s2)
        ∧ (f s2.world).1 ≠ .ok) :
    (o.Run s).1 ≠ .ok ∧ o.Run s = o.runOne T1 s0 ∧ (o.Run s).2.asserted = s0.asserted
      ∧ (∀ others, ({ o with tests := before ++ T1 :: others } : Organizer).Run s = o.Run s)
      ∧ ∃ evs, (o.Run s).2.trace
          = s0.trace ++ [.running T1.Name] ++ o.mocks.map Event.reset ++ evs
        ∧ ∀ e ∈ evs, (∃ k, e = .setup k) ∨ e = .body T1.Name none := by
  obtain ⟨evs, h1, h2⟩ := runHooks_trace_evs Event.setup o.setup 0
    (resetMocks o.mocks (s0.emit (.running T1.Name)))
  have ha := runHooks_asserted Event.setup o.setup 0
    (resetMocks o.mocks (s0.emit (.running T1.Name)))
  simp only [resetMocks_trace, resetMocks_asserted, emit_trace, emit_asserted] at h1 ha
  have hone : (o.runOne T1 s0).1 ≠ .ok ∧ (o.runOne T1 s0).2.asserted = s0.asserted
      ∧ ∃ evs, (o.runOne T1 s0).2.trace
          = s0.trace ++ [.running T1.Name] ++ o.mocks.map Event.reset ++ evs
        ∧ ∀ e ∈ evs, (∃ k, e = .setup k) ∨ e = .body T1.Name none := by
    rcases hrun : runHooks Event.setup o.setup 0
      (resetMocks o.mocks (s0.emit (.running T1.Name))) with ⟨r, s2⟩
    rw [hrun] at h1 ha hfail
    simp only at h1 ha
    have hsetupfail : r ≠ .ok → (o.runOne T1 s0).1 ≠ .ok
        ∧ (o.runOne T1 s0).2.asserted = s0.asserted
        ∧ ∃ evs, (o.runOne T1 s0).2.trace
            = s0.trace ++ [.running T1.Name] ++ o.mocks.map Event.reset ++ evs
          ∧ ∀ e ∈ evs, (∃ k, e = .setup k) ∨ e = .body T1.Name none := by
      intro hr
      cases r with
      | ok => exact absurd rfl hr
      | abort =>
        simp only [Organizer.runOne, hF, hrun]
        exact ⟨by decide, ha, evs, h1, fun e he => Or.inl (h2 e he)⟩
      | panic =>
        simp only [Organizer.runOne, hF, hrun]
        exact ⟨by decide, ha, evs, h1, fun e he => Or.inl (h2 e he)⟩
    rcases hfail with hr | ⟨s3, hs3, hb⟩
    · exact hsetupfail hr
    · cases hs3
      rcases hf : f s2.world with ⟨rb, w⟩
      rw [hf] at hb
      have hall : ∀ e ∈ evs ++ [Event.body T1.Name none],
          (∃ k, e = .setup k) ∨ e = .body T1.Name none := by
        intro e he
        rcases List.mem_append.mp he with he | he
        · exact Or.inl (h2 e he)
        · simp at he
          exact Or.inr he
      cases rb with
      | ok => exact absurd rfl hb
      | abort =>
        simp only [Organizer.runOne, hF, hrun, hf]
        exact ⟨by decide, ha, evs ++ [.body T1.Name none], by simp [St.emit, h1], hall⟩
      | panic =>
        simp only [Organizer.runOne, hF, hrun, hf]
        exact ⟨by decide, ha, evs ++ [.body T1.Name none], by simp [St.emit, h1], hall⟩
  have hstop : ∀ others, o.runLoop (before ++ T1 :: others) s = o.runOne T1 s0 := by
    intro others
    rw [Organizer.runLoop_append, hreach]
    simp only [Organizer.runLoop]
    rcases hrun : o.runOne T1 s0 with ⟨r, s1⟩
    rw [hrun] at hone
    cases r with
    | ok => exact absurd rfl hone.1
    | abort => rfl
    | panic => rfl
  have hRun : o.Run s = o.runOne T1 s0 := by
    simp only [Organizer.Run, htests]
    exact hstop later
  refine ⟨by rw [hRun]; exact hone.1, hRun, by rw [hRun]; exact hone.2.1, ?_, by
    rw [hRun]; exact hone.2.2⟩
  intro others
  rw [hRun]
  have hc := Organizer.runLoop_congr { o with tests := before ++ T1 :: others } o rfl rfl rfl
  show Organizer.runLoop { o with tests := before ++ T1 :: others } (before ++ T1 :: others) s = _
  rw [hc]
  exact hstop others

theorem no_isolation_simple_witness :
    (exSimpleTwo.Run (St.init World.blank)).1 ≠ .ok
      ∧ exSimpleTwo.Run (St.init World.blank)
          = exSimpleTwo.runOne ⟨"t1", some hookAbort⟩ (St.init World.blank)
      ∧ (exSimpleTwo.Run (St.init World.blank)).2.asserted = (St.init World.blank).asserted
      ∧ (∀ others, ({ exSimpleTwo with tests := [] ++ ⟨"t1", some hookAbort⟩ :: others }
            : Organizer).Run (St.init World.blank) = exSimpleTwo.Run (St.init World.blank))
      ∧ ∃ evs, (exSimpleTwo.Run (St.init World.blank)).2.trace
          = (St.init World.blank).trace ++ [.running "t1"]
            ++ exSimpleTwo.mocks.map Event.reset ++ evs
        ∧ ∀ e ∈ evs, (∃ k, e = .setup k) ∨ e = .body "t1" none :=
  no_isolation_simple exSimpleTwo [] [⟨"t2", some (hookExpect 0 "Foo")⟩]
    ⟨"t1", some hookAbort⟩ hookAbort (St.init World.blank) (St.init World.blank) rfl rfl rfl
    (Or.inr ⟨_, rfl, by decide⟩)

/-- The run of `exSimpleTwo`, step by step: it ends in the body of `t1`. -/
theorem exSimpleTwo_trace :
    (exSimpleTwo.Run (St.init World.blank)).1 = .abort
      ∧ (exSimpleTwo.Run (St.init World.blank)).2.trace
        = [.running "t1", .reset 0, .setup 0, .body "t1" none] := by
  decide

/-! ## What a run does to the organizer itself -/

theorem ByRef.kept_refl {α : Type} (s : ByRef.Sys α) : s.kept s :=
  fun h => ⟨rfl, h⟩

theorem ByRef.kept_trans {α : Type} (s s1 s2 : ByRef.Sys α) (h1 : s.kept s1)
    (h2 : s1.kept s2) : s.kept s2 := by
  intro h
  obtain ⟨ho, ht⟩ := h2 h
  obtain ⟨ho1, ht1⟩ := h1 ht
  exact ⟨ho.trans ho1, ht1⟩

theorem ByRef.emit_kept {α : Type} (s : ByRef.Sys α) (e : Event) : s.kept (s.emit e) :=
  fun h => ⟨rfl, h⟩

theorem ByRef.resetMocks_same {α : Type} (ms : List MockRef) (s : ByRef.Sys α) :
    (ByRef.resetMocks ms s).o = s.o ∧ (ByRef.resetMocks ms s).touched = s.touched := by
  induction ms generalizing s with
  | nil => exact ⟨rfl, rfl⟩
  | cons m ms ih =>
    simp only [ByRef.resetMocks]
    exact ih _

theorem ByRef.resetMocks_kept {α : Type} (ms : List MockRef) (s : ByRef.Sys α) :
    s.kept (ByRef.resetMocks ms s) := by
  intro h
  obtain ⟨h1, h2⟩ := ByRef.resetMocks_same ms s
  exact ⟨h1, h2 ▸ h⟩

theorem ByRef.verifyMocks_same {α : Type} (t : T) (ms : List MockRef) (s : ByRef.Sys α) :
    (ByRef.verifyMocks t ms s).o = s.o ∧ (ByRef.verifyMocks t ms s).touched = s.touched := by
  induction ms generalizing s with
  | nil => exact ⟨rfl, rfl⟩
  | cons m ms ih =>
    simp only [ByRef.verifyMocks]
    exact ih _

theorem ByRef.verifyMocks_kept {α : Type} (t : T) (ms : List MockRef) (s : ByRef.Sys α) :
    s.kept (ByRef.verifyMocks t ms s) := by
  intro h
  obtain ⟨h1, h2⟩ := ByRef.verifyMocks_same t ms s
  exact ⟨h1, h2 ▸ h⟩

/-- A call leaves the organizer as it was unless the callback changes it, and
then the state is marked. -/
theorem ByRef.call_kept {α : Type} [DecidableEq α] (sem : ByRef.Sem α) (c : ByRef.Code)
    (arg : Option T) (s : ByRef.Sys α) : s.kept (s.call sem c arg).2 := by
  intro h
  rcases hs : sem c arg (s.o, s.world) with ⟨r, o2, w⟩
  simp only [ByRef.Sys.call, hs, Bool.or_eq_false_iff, decide_eq_false_iff_not, not_not] at h ⊢
  exact ⟨h.2, h.1⟩

theorem ByRef.runHooks_kept {α : Type} [DecidableEq α] (sem : ByRef.Sem α) (ev : Nat → Event)
    (cs : List ByRef.Code) (i : Nat) (s : ByRef.Sys α) :
    s.kept (ByRef.runHooks sem ev cs i s).2 := by
  induction cs generalizing i s with
  | nil => exact ByRef.kept_refl s
  | cons c cs ih =>
    have hc := ByRef.call_kept sem c none s
    rcases hcall : s.call sem c none with ⟨r, s1⟩
    rw [hcall] at hc
    have he : s.kept (s1.emit (ev i)) := ByRef.kept_trans _ _ _ hc (ByRef.emit_kept _ _)
    cases r with
    | ok =>
      simp only [ByRef.runHooks, hcall]
      exact ByRef.kept_trans _ _ _ he (ih _ _)
    | abort =>
      simp only [ByRef.runHooks, hcall]
      exact he
    | panic =>
      simp only [ByRef.runHooks, hcall]
      exact he

theorem ByRef.runOne_kept (sem : ByRef.Sem ByRef.Organizer) (test : ByRef.Test)
    (s : ByRef.Sys ByRef.Organizer) : s.kept (ByRef.Organizer.runOne sem test s).2 := by
  cases hF : test.Func with
  | none =>
    simp only [ByRef.Organizer.runOne, hF]
    exact ByRef.emit_kept _ _
  | some f =>
    have h1 : s.kept (ByRef.resetMocks s.o.mocks (s.emit (.running test.Name))) :=
      ByRef.kept_trans _ _ _ (ByRef.emit_kept _ _) (ByRef.resetMocks_kept _ _)
    have h2 := ByRef.runHooks_kept sem Event.setup
      (ByRef.resetMocks s.o.mocks (s.emit (.running test.Name))).o.setup 0
      (ByRef.resetMocks s.o.mocks (s.emit (.running test.Name)))
    rcases hrun : ByRef.runHooks sem Event.setup
      (ByRef.resetMocks s.o.mocks (s.emit (.running test.Name))).o.setup 0
      (ByRef.resetMocks s.o.mocks (s.emit (.running test.Name))) with ⟨r, s2⟩
    rw [hrun] at h2
    have h12 : s.kept s2 := ByRef.kept_trans _ _ _ h1 h2
    cases r with
    | abort =>
      simp only [ByRef.Organizer.runOne, hF, hrun]
      exact h12
    | panic =>
      simp only [ByRef.Organizer.runOne, hF, hrun]
      exact h12
    | ok =>
      have h3 := ByRef.call_kept sem f none s2
      rcases hcall : s2.call sem f none with ⟨rb, s3⟩
      rw [hcall] at h3
      have h4 : s.kept (s3.emit (.body test.Name none)) :=
        ByRef.kept_trans _ _ _ (ByRef.kept_trans _ _ _ h12 h3) (ByRef.emit_kept _ _)
      cases rb with
      | ok =>
        simp only [ByRef.Organizer.runOne, hF, hrun, hcall]
        exact ByRef.kept_trans _ _ _ h4 (ByRef.verifyMocks_kept _ _ _)
      | abort =>
        simp only [ByRef.Organizer.runOne, hF, hrun, hcall]
        exact h4
      | panic =>
        simp only [ByRef.Organizer.runOne, hF, hrun, hcall]
        exact h4

theorem ByRef.simple_loop_kept (sem : ByRef.Sem ByRef.Organizer) (ts : List ByRef.Test)
    (s : ByRef.Sys ByRef.Organizer) : s.kept (ByRef.Organizer.runLoop sem ts s).2 := by
  induction ts generalizing s with
  | nil => exact ByRef.kept_refl s
  | cons x xs ih =>
    have h1 := ByRef.runOne_kept sem x s
    rcases hrun : ByRef.Organizer.runOne sem x s with ⟨r, s1⟩
    rw [hrun] at h1
    cases r with
    | ok =>
      simp only [ByRef.Organizer.runLoop, hrun]
      exact ByRef.kept_trans _ _ _ h1 (ih s1)
    | abort =>
      simp only [ByRef.Organizer.runLoop, hrun]
      exact h1
    | panic =>
      simp only [ByRef.Organizer.runLoop, hrun]
      exact h1

theorem ByRef.runCleanup_kept (sem : ByRef.Sem ByRef.OrganizerModern)
    (s : ByRef.Sys ByRef.OrganizerModern) : s.kept (ByRef.OrganizerModern.runCleanup sem s).2 :=
  ByRef.runHooks_kept sem Event.cleanup s.o.cleanup 0 s

theorem ByRef.scope_kept (sem : ByRef.Sem ByRef.OrganizerModern) (name : String)
    (f : ByRef.Code) (t : T) (s : ByRef.Sys ByRef.OrganizerModern) :
    s.kept (ByRef.OrganizerModern.scope sem name f t s).2 := by
  have h1 : s.kept (ByRef.resetMocks s.o.mocks s) := ByRef.resetMocks_kept _ _
  have h2 := ByRef.runHooks_kept sem Event.setup (ByRef.resetMocks s.o.mocks s).o.setup 0
    (ByRef.resetMocks s.o.mocks s)
  rcases hrun : ByRef.runHooks sem Event.setup (ByRef.resetMocks s.o.mocks s).o.setup 0
    (ByRef.resetMocks s.o.mocks s) with ⟨r, s2⟩
  rw [hrun] at h2
  have h12 : s.kept s2 := ByRef.kept_trans _ _ _ h1 h2
  cases r with
  | abort =>
    simp only [ByRef.OrganizerModern.scope, hrun]
    exact h12
  | panic =>
    simp only [ByRef.OrganizerModern.scope, hrun]
    exact h12
  | ok =>
    have h3 := ByRef.call_kept sem f (some t) s2
    rcases hcall : s2.call sem f (some t) with ⟨rb, s3⟩
    rw [hcall] at h3
    have h4 : s.kept (s3.emit (.body name (some t))) :=
      ByRef.kept_trans _ _ _ (ByRef.kept_trans _ _ _ h12 h3) (ByRef.emit_kept _ _)
    have hfail : s.kept (ByRef.OrganizerModern.runCleanup sem
        (s3.emit (.body name (some t)))).2 :=
      ByRef.kept_trans _ _ _ h4 (ByRef.runCleanup_kept sem _)
    cases rb with
    | ok =>
      simp only [ByRef.OrganizerModern.scope, hrun, hcall]
      exact ByRef.kept_trans _ _ _
        (ByRef.kept_trans _ _ _ h4 (ByRef.verifyMocks_kept _ _ _)) (ByRef.runCleanup_kept sem _)
    | abort =>
      simp only [ByRef.OrganizerModern.scope, hrun, hcall]
      generalize ByRef.OrganizerModern.runCleanup sem (s3.emit (.body name (some t))) = res
        at hfail ⊢
      rcases res with ⟨rc, s4⟩
      cases rc <;> exact hfail
    | panic =>
      simp only [ByRef.OrganizerModern.scope, hrun, hcall]
      generalize ByRef.OrganizerModern.runCleanup sem (s3.emit (.body name (some t))) = res
        at hfail ⊢
      rcases res with ⟨rc, s4⟩
      cases rc <;> exact hfail

theorem ByRef.runTest_kept (sem : ByRef.Sem ByRef.OrganizerModern) (test : ByRef.testModern)
    (s : ByRef.Sys ByRef.OrganizerModern) :
    s.kept (ByRef.OrganizerModern.runTest sem test s).2 := by
  cases hF : test.Func with
  | none =>
    simp only [ByRef.OrganizerModern.runTest, hF]
    exact ByRef.emit_kept _ _
  | some f =>
    have h1 : s.kept (ByRef.OrganizerModern.scope sem test.Name f (.sub s.o.t test.Name)
        (s.emit (.scopeOpen s.o.t test.Name))).2 :=
      ByRef.kept_trans _ _ _ (ByRef.emit_kept _ _) (ByRef.scope_kept sem _ _ _ _)
    simp only [ByRef.OrganizerModern.runTest, hF, ByRef.tRun]
    generalize ByRef.OrganizerModern.scope sem test.Name f (.sub s.o.t test.Name)
      (s.emit (.scopeOpen s.o.t test.Name)) = res at h1 ⊢
    rcases res with ⟨r, s1⟩
    cases r with
    | panic => exact h1
    | ok => exact ByRef.kept_trans _ _ _ h1 (ByRef.emit_kept _ _)
    | abort => exact ByRef.kept_trans _ _ _ h1 (ByRef.emit_kept _ _)

theorem ByRef.modern_loop_kept (sem : ByRef.Sem ByRef.OrganizerModern)
    (ts : List ByRef.testModern) (s : ByRef.Sys ByRef.OrganizerModern) :
    s.kept (ByRef.OrganizerModern.runLoop sem ts s).2 := by
  induction ts generalizing s with
  | nil => exact ByRef.kept_refl s
  | cons x xs ih =>
    have h1 := ByRef.runTest_kept sem x s
    rcases hrun : ByRef.OrganizerModern.runTest sem x s with ⟨r, s1⟩
    rw [hrun] at h1
    cases r with
    | ok =>
      simp only [ByRef.OrganizerModern.runLoop, hrun]
      exact ByRef.kept_trans _ _ _ h1 (ih s1)
    | abort =>
      simp only [ByRef.OrganizerModern.runLoop, hrun]
      exact h1
    | panic =>
      simp only [ByRef.OrganizerModern.runLoop, hrun]
      exact h1

/-- C16, as stated, fails in both variants: the body of the test `t` of `exLate`
and of `exLateModern` registers the test `late` while `Run` is in progress, so
after `Run` the tests sequence has one record more than before, and a second
`Run` goes on to process `late`, which the first did not. -/
theorem run_read_only_counterexample :
    (ByRef.exLate.o.tests = [⟨"t", some 1⟩]
      ∧ (ByRef.Organizer.Run ByRef.semLate ByRef.exLate).2.o.tests
          = [⟨"t", some 1⟩, ⟨"late", some 2⟩]
      ∧ (ByRef.Organizer.Run ByRef.semLate ByRef.exLate).2.trace
          = [.running "t", .reset 0, .setup 0, .body "t" none, .verify 0 (.root "suite")]
      ∧ (ByRef.Organizer.Run ByRef.semLate
            (ByRef.Organizer.Run ByRef.semLate ByRef.exLate).2).2.trace
          = [.running "t", .reset 0, .setup 0, .body "t" none, .verify 0 (.root "suite"),
             .running "t", .reset 0, .setup 0, .body "t" none, .verify 0 (.root "suite"),
             .running "late", .reset 0, .setup 0, .body "late" none,
             .verify 0 (.root "suite")])
    ∧ (ByRef.exLateModern.o.tests = [⟨"t", some 1⟩]
      ∧ (ByRef.OrganizerModern.Run ByRef.semLateModern ByRef.exLateModern).2.o.tests
          = [⟨"t", some 1⟩, ⟨"late", some 2⟩]
      ∧ ((ByRef.OrganizerModern.Run ByRef.semLateModern
            (ByRef.OrganizerModern.Run ByRef.semLateModern ByRef.exLateModern).2).2.trace.count
              (.scopeOpen (.root "suite") "late") = 1)
      ∧ (ByRef.OrganizerModern.Run ByRef.semLateModern ByRef.exLateModern).2.trace.count
              (.scopeOpen (.root "suite") "late") = 0) := by
  decide

/-- C16, amended. `Run` is read-only on the coordinator, both variants: no step
of `Run` itself writes to the organizer, so in every run in which no callback
changes the organizer (none registers a hook, a mock or a test or sets the
override while `Run` is in progress) the organizer after `Run` is the organizer
before it, with the same tests in the same order, the same setup hooks, cleanup
hooks and mocks and the same override; and a second `Run` then ranges over
exactly the records the first ranged over, in the same order. -/
theorem run_keeps_organizer (sem : ByRef.Sem ByRef.Organizer)
    (semM : ByRef.Sem ByRef.OrganizerModern) (s : ByRef.Sys ByRef.Organizer)
    (sm : ByRef.Sys ByRef.OrganizerModern) :
    ((ByRef.Organizer.Run sem s).2.touched = false →
      (ByRef.Organizer.Run sem s).2.o = s.o
        ∧ (ByRef.Organizer.Run sem s).2.o.tests = s.o.tests
        ∧ (ByRef.Organizer.Run sem s).2.o.setup = s.o.setup
        ∧ (ByRef.Organizer.Run sem s).2.o.mocks = s.o.mocks
        ∧ ByRef.Organizer.Run sem (ByRef.Organizer.Run sem s).2
            = ByRef.Organizer.runLoop sem s.o.tests (ByRef.Organizer.Run sem s).2)
    ∧ ((ByRef.OrganizerModern.Run semM sm).2.touched = false →
      (ByRef.OrganizerModern.Run semM sm).2.o = sm.o
        ∧ (ByRef.OrganizerModern.Run semM sm).2.o.tests = sm.o.tests
        ∧ (ByRef.OrganizerModern.Run semM sm).2.o.setup = sm.o.setup
        ∧ (ByRef.OrganizerModern.Run semM sm).2.o.cleanup = sm.o.cleanup
        ∧ (ByRef.OrganizerModern.Run semM sm).2.o.mocks = sm.o.mocks
        ∧ (ByRef.OrganizerModern.Run semM sm).2.o.only = sm.o.only
        ∧ ByRef.OrganizerModern.Run semM (ByRef.OrganizerModern.Run semM sm).2
            = match sm.o.only with
              | some test =>
                ByRef.OrganizerModern.runTest semM test (ByRef.OrganizerModern.Run semM sm).2
              | none =>
                ByRef.OrganizerModern.runLoop semM sm.o.tests
                  (ByRef.OrganizerModern.Run semM sm).2) := by
  constructor
  · intro h
    have hk : s.kept (ByRef.Organizer.Run sem s).2 := ByRef.simple_loop_kept sem s.o.tests s
    have ho := (hk h).1
    refine ⟨ho, by rw [ho], by rw [ho], by rw [ho], ?_⟩
    show ByRef.Organizer.runLoop sem (ByRef.Organizer.Run sem s).2.o.tests _ = _
    rw [ho]
  · intro h
    have hk : sm.kept (ByRef.OrganizerModern.Run semM sm).2 := by
      unfold ByRef.OrganizerModern.Run
      cases sm.o.only with
      | none => exact ByRef.modern_loop_kept semM sm.o.tests sm
      | some test => exact ByRef.runTest_kept semM test sm
    have ho := (hk h).1
    refine ⟨ho, by rw [ho], by rw [ho], by rw [ho], by rw [ho], by rw [ho], ?_⟩
    show (match (ByRef.OrganizerModern.Run semM sm).2.o.only with
      | some test =>
        ByRef.OrganizerModern.runTest semM test (ByRef.OrganizerModern.Run semM sm).2
      | none =>
        ByRef.OrganizerModern.runLoop semM (ByRef.OrganizerModern.Run semM sm).2.o.tests
          (ByRef.OrganizerModern.Run semM sm).2) = _
    rw [ho]

theorem run_keeps_organizer_witness :
    ((ByRef.Organizer.Run (ByRef.semIdle ByRef.Organizer) ByRef.exLate).2.o = ByRef.exLate.o
      ∧ (ByRef.Organizer.Run (ByRef.semIdle ByRef.Organizer) ByRef.exLate).2.o.tests
          = ByRef.exLate.o.tests)
    ∧ ((ByRef.OrganizerModern.Run (ByRef.semIdle ByRef.OrganizerModern) ByRef.exLateModern).2.o
          = ByRef.exLateModern.o
      ∧ (ByRef.OrganizerModern.Run (ByRef.semIdle ByRef.OrganizerModern)
            ByRef.exLateModern).2.o.tests = ByRef.exLateModern.o.tests) :=
  ⟨⟨((run_keeps_organizer (ByRef.semIdle ByRef.Organizer)
        (ByRef.semIdle ByRef.OrganizerModern) ByRef.exLate ByRef.exLateModern).1
        (by decide)).1,
    ((run_keeps_organizer (ByRef.semIdle ByRef.Organizer)
        (ByRef.semIdle ByRef.OrganizerModern) ByRef.exLate ByRef.exLateModern).1
        (by decide)).2.1⟩,
   ⟨((run_keeps_organizer (ByRef.semIdle ByRef.Organizer)
        (ByRef.semIdle ByRef.OrganizerModern) ByRef.exLate ByRef.exLateModern).2
        (by decide)).1,
    ((run_keeps_organizer (ByRef.semIdle ByRef.Organizer)
        (ByRef.semIdle ByRef.OrganizerModern) ByRef.exLate ByRef.exLateModern).2
        (by decide)).2.1⟩⟩

end Neko
